import Mathlib

/-!
Verification of the wordle engine (`wordle/wordle.py`): the duplicate-aware
scorer `Wordle._make_guess`, the per-character `Constraint` algebra
(`from_result`, `update`, `merge`), and the session legality logic
(`is_legal`, `_verify_is_legal`, `make_guess`, `copy_make_guess`).
Words are embedded as `List Char`, Python `Counter` lookups as functions
out of `Char`, Python `set[int]` as `Finset ℕ`, raised exceptions as
`Option`-failure, and the mutable session as explicit state passing.
-/

namespace WordleGame

/-- Per-position score of a guess character, mirroring `CharResult` in
`wordle.py`: `Gray` (the spec's `Absent`), `Yellow` (`Present`),
`Green` (`Correct`). -/
inductive CharResult where
  | Gray
  | Yellow
  | Green
deriving DecidableEq, Repr

open CharResult

/-- Decrement an `Int`-valued character counter at one key, as the Python
`counter[c] -= 1` statements in `Wordle._make_guess`. -/
def decr (ov : Char → Int) (c : Char) : Char → Int :=
  fun x => if x = c then ov x - 1 else ov x

/-- The initial budget `self._char_counts & guess_char_counts` of
`Wordle._make_guess`: Python `Counter` intersection keeps the pointwise
minimum of the two counts (zero for characters missing on either side). -/
def overlapInit (secret guess : List Char) : Char → Int :=
  fun c => min (secret.count c : Int) (guess.count c : Int)

/-- First loop of `Wordle._make_guess` over `zip(word, guess)`: positional
matches are marked `Green` and decrement the budget at that character.
Returns the results over the zipped region and the final budget. -/
def greenPass : List Char → List Char → (Char → Int) → List CharResult × (Char → Int)
  | s :: ss, g :: gs, ov =>
    if s = g then
      let rest := greenPass ss gs (decr ov s)
      (Green :: rest.1, rest.2)
    else
      let rest := greenPass ss gs ov
      (Gray :: rest.1, rest.2)
  | _, _, ov => ([], ov)

/-- Second loop of `Wordle._make_guess`: a position not already `Green`
whose guessed character has nonzero remaining budget becomes `Yellow` and
decrements that budget; every other position keeps its first-pass value. -/
def yellowPass : List CharResult → List Char → (Char → Int) → List CharResult
  | r :: rs, g :: gs, ov =>
    if r ≠ Green ∧ ov g ≠ 0 then
      Yellow :: yellowPass rs gs (decr ov g)
    else
      r :: yellowPass rs gs ov
  | rs, _, _ => rs

/-- The scoring core of `Wordle._make_guess` (the part after its legality
checks): the result list starts as `len(word)` copies of `Gray`, then the
green loop and the yellow loop run over `zip(word, guess)`. -/
def score (secret guess : List Char) : List CharResult :=
  let p := greenPass secret guess (overlapInit secret guess)
  yellowPass (p.1 ++ List.replicate (secret.length - guess.length) Gray) guess p.2

/-- Decrement a `Nat`-valued frequency table at one key. -/
def decrN (tbl : Char → Nat) (c : Char) : Char → Nat :=
  fun x => if x = c then tbl x - 1 else tbl x

/-- Modelled from the spec: step 1 of the reference algorithm of spec §4.1,
the per-character multiset count (frequency table) of the secret. -/
def specTable (secret : List Char) : Char → Nat :=
  fun c => secret.count c

/-- Modelled from the spec: step 2 of the reference algorithm of spec §4.1.
First pass, left to right: where `guess[i] == secret[i]`, mark `Correct`
(`Green`) and decrement that character's remaining count in the frequency
table. -/
def specGreenPass : List Char → List Char → (Char → Nat) → List CharResult × (Char → Nat)
  | s :: ss, g :: gs, tbl =>
    if s = g then
      let rest := specGreenPass ss gs (decrN tbl s)
      (Green :: rest.1, rest.2)
    else
      let rest := specGreenPass ss gs tbl
      (Gray :: rest.1, rest.2)
  | _, _, tbl => ([], tbl)

/-- Modelled from the spec: step 3 of the reference algorithm of spec §4.1.
Second pass, left to right over positions not already `Correct`: if the
guessed character still has remaining count > 0 in the frequency table,
mark `Present` (`Yellow`) and decrement; otherwise mark `Absent` (`Gray`). -/
def specYellowPass : List CharResult → List Char → (Char → Nat) → List CharResult
  | r :: rs, g :: gs, tbl =>
    if r = Green then
      r :: specYellowPass rs gs tbl
    else if 0 < tbl g then
      Yellow :: specYellowPass rs gs (decrN tbl g)
    else
      Gray :: specYellowPass rs gs tbl
  | rs, _, _ => rs

/-- Modelled from the spec: the full reference two-pass scorer of spec §4.1,
starting from the secret's full per-character frequency table. -/
def specScore (secret guess : List Char) : List CharResult :=
  let p := specGreenPass secret guess (specTable secret)
  specYellowPass p.1 guess p.2

/-- The first-pass result sequence, position by position: `Green` exactly
where secret and guess agree. Both green passes produce it. -/
def greensList : List Char → List Char → List CharResult
  | s :: ss, g :: gs => (if s = g then Green else Gray) :: greensList ss gs
  | _, _ => []

/-- Number of positional matches on character `c` in the zipped region. -/
def greensCnt : List Char → List Char → Char → Nat
  | s :: ss, g :: gs, c => (if s = g ∧ s = c then 1 else 0) + greensCnt ss gs c
  | _, _, _ => 0

/-- Number of remaining non-`Green` positions whose guess character is `c`. -/
def ngCount : List CharResult → List Char → Char → Nat
  | r :: rs, g :: gs, c => (if r ≠ Green ∧ g = c then 1 else 0) + ngCount rs gs c
  | _, _, _ => 0

/-- Number of positions whose guess character is `c` and whose result is `v`. -/
def matchCnt : List CharResult → List Char → Char → CharResult → Nat
  | r :: rs, g :: gs, c, v => (if g = c ∧ r = v then 1 else 0) + matchCnt rs gs c v
  | _, _, _, _ => 0

theorem greenPass_fst (ss : List Char) :
    ∀ (gs : List Char) (ov : Char → Int), (greenPass ss gs ov).1 = greensList ss gs := by
  induction ss with
  | nil => intro gs ov; cases gs <;> simp [greenPass, greensList]
  | cons s ss ih =>
    intro gs ov
    cases gs with
    | nil => simp [greenPass, greensList]
    | cons g gs =>
      by_cases h : s = g <;> simp [greenPass, greensList, h, ih]

theorem specGreenPass_fst (ss : List Char) :
    ∀ (gs : List Char) (tbl : Char → Nat), (specGreenPass ss gs tbl).1 = greensList ss gs := by
  induction ss with
  | nil => intro gs tbl; cases gs <;> simp [specGreenPass, greensList]
  | cons s ss ih =>
    intro gs tbl
    cases gs with
    | nil => simp [specGreenPass, greensList]
    | cons g gs =>
      by_cases h : s = g <;> simp [specGreenPass, greensList, h, ih]

theorem greenPass_snd_cons_eq (s g : Char) (ss gs : List Char) (ov : Char → Int) (h : s = g) :
    (greenPass (s :: ss) (g :: gs) ov).2 = (greenPass ss gs (decr ov s)).2 := by
  simp [greenPass, h]

theorem greenPass_snd_cons_ne (s g : Char) (ss gs : List Char) (ov : Char → Int) (h : ¬ s = g) :
    (greenPass (s :: ss) (g :: gs) ov).2 = (greenPass ss gs ov).2 := by
  simp [greenPass, h]

theorem greenPass_snd (ss : List Char) :
    ∀ (gs : List Char) (ov : Char → Int) (c : Char),
      (greenPass ss gs ov).2 c = ov c - (greensCnt ss gs c : Int) := by
  induction ss with
  | nil => intro gs ov c; cases gs <;> simp [greenPass, greensCnt]
  | cons s ss ih =>
    intro gs ov c
    cases gs with
    | nil => simp [greenPass, greensCnt]
    | cons g gs =>
      by_cases h : s = g
      · subst h
        rw [greenPass_snd_cons_eq s s ss gs ov rfl, ih]
        by_cases hc : c = s
        · subst hc
          have hcnt : greensCnt (c :: ss) (c :: gs) c = 1 + greensCnt ss gs c := by
            simp [greensCnt]
          rw [hcnt]
          simp [decr]
          omega
        · have hsc : ¬ s = c := fun hh => hc hh.symm
          simp [decr, greensCnt, hc, hsc]
      · rw [greenPass_snd_cons_ne s g ss gs ov h, ih]
        have hns : ¬(s = g ∧ s = c) := fun hand => h hand.1
        simp [greensCnt, hns]

theorem specGreenPass_snd_cons_eq (s g : Char) (ss gs : List Char) (tbl : Char → Nat) (h : s = g) :
    (specGreenPass (s :: ss) (g :: gs) tbl).2 = (specGreenPass ss gs (decrN tbl s)).2 := by
  simp [specGreenPass, h]

theorem specGreenPass_snd_cons_ne (s g : Char) (ss gs : List Char) (tbl : Char → Nat) (h : ¬ s = g) :
    (specGreenPass (s :: ss) (g :: gs) tbl).2 = (specGreenPass ss gs tbl).2 := by
  simp [specGreenPass, h]

theorem specGreenPass_snd (ss : List Char) :
    ∀ (gs : List Char) (tbl : Char → Nat) (c : Char),
      (specGreenPass ss gs tbl).2 c = tbl c - greensCnt ss gs c := by
  induction ss with
  | nil => intro gs tbl c; cases gs <;> simp [specGreenPass, greensCnt]
  | cons s ss ih =>
    intro gs tbl c
    cases gs with
    | nil => simp [specGreenPass, greensCnt]
    | cons g gs =>
      by_cases h : s = g
      · subst h
        rw [specGreenPass_snd_cons_eq s s ss gs tbl rfl, ih]
        by_cases hc : c = s
        · subst hc
          have hcnt : greensCnt (c :: ss) (c :: gs) c = 1 + greensCnt ss gs c := by
            simp [greensCnt]
          rw [hcnt]
          simp [decrN]
          omega
        · have hsc : ¬ s = c := fun hh => hc hh.symm
          simp [decrN, greensCnt, hc, hsc]
      · rw [specGreenPass_snd_cons_ne s g ss gs tbl h, ih]
        have hns : ¬(s = g ∧ s = c) := fun hand => h hand.1
        simp [greensCnt, hns]

theorem greensList_no_yellow (ss : List Char) :
    ∀ (gs : List Char), ∀ r ∈ greensList ss gs, r ≠ Yellow := by
  induction ss with
  | nil => intro gs; cases gs <;> simp [greensList]
  | cons s ss ih =>
    intro gs
    cases gs with
    | nil => simp [greensList]
    | cons g gs =>
      intro r hr
      simp only [greensList, List.mem_cons] at hr
      rcases hr with hr | hr
      · subst hr
        by_cases h : s = g <;> simp [h]
      · exact ih gs r hr

theorem yellowPass_eq_spec (rs : List CharResult) :
    ∀ (gs : List Char) (A : Char → Int) (B : Char → Nat),
      (∀ r ∈ rs, r ≠ Yellow) →
      (∀ c, A c = min (B c : Int) (ngCount rs gs c : Int)) →
      yellowPass rs gs A = specYellowPass rs gs B := by
  induction rs with
  | nil => intro gs A B _ _; cases gs <;> simp [yellowPass, specYellowPass]
  | cons r rs ih =>
    intro gs A B hny hAB
    cases gs with
    | nil => simp [yellowPass, specYellowPass]
    | cons g gs =>
      have hny' : ∀ x ∈ rs, x ≠ Yellow := fun x hx => hny x (List.mem_cons_of_mem r hx)
      by_cases hr : r = Green
      · subst hr
        have hAB' : ∀ c, A c = min (B c : Int) (ngCount rs gs c : Int) := by
          intro c
          have := hAB c
          simpa [ngCount] using this
        simp [yellowPass, specYellowPass, ih gs A B hny' hAB']
      · have hmem := hny r (List.mem_cons_self r rs)
        have hgray : r = Gray := by
          cases r with
          | Gray => rfl
          | Yellow => exact absurd rfl hmem
          | Green => exact absurd rfl hr
        subst hgray
        have hng : ngCount (Gray :: rs) (g :: gs) g = 1 + ngCount rs gs g := by
          simp [ngCount]
        by_cases hbud : A g = 0
        · have hBg : B g = 0 := by
            have := hAB g
            rw [hng] at this
            omega
          have hAB' : ∀ c, A c = min (B c : Int) (ngCount rs gs c : Int) := by
            intro c
            have := hAB c
            by_cases hc : g = c
            · subst hc
              rw [hng] at this
              omega
            · have : A c = min (B c : Int) (ngCount (Gray :: rs) (g :: gs) c : Int) := this
              simpa [ngCount, hc] using this
          simp [yellowPass, specYellowPass, hbud, hBg, ih gs A B hny' hAB']
        · have hBg : 0 < B g := by
            have := hAB g
            rw [hng] at this
            omega
          have hcond : Gray ≠ Green ∧ A g ≠ 0 := by
            refine ⟨by simp, hbud⟩
          have hAB' : ∀ c, decr A g c = min ((decrN B g c : Nat) : Int) (ngCount rs gs c : Int) := by
            intro c
            by_cases hc : c = g
            · subst hc
              have := hAB c
              rw [hng] at this
              simp [decr, decrN]
              omega
            · have hgc : ¬ g = c := fun hh => hc hh.symm
              have := hAB c
              simp only [ngCount, hgc, false_and, and_false, if_neg, ite_false] at this
              simp only [decr, decrN, if_neg hc]
              simpa [ngCount, hgc] using this
          simp [yellowPass, specYellowPass, hcond, hBg, ih gs (decr A g) (decrN B g) hny' hAB']

theorem greensCnt_le_count_left (ss : List Char) :
    ∀ (gs : List Char) (c : Char), greensCnt ss gs c ≤ ss.count c := by
  induction ss with
  | nil => intro gs c; cases gs <;> simp [greensCnt]
  | cons s ss ih =>
    intro gs c
    have hcnt : (s :: ss).count c = ss.count c + (if s = c then 1 else 0) := by
      by_cases hsc : s = c <;> simp [List.count_cons, hsc]
    cases gs with
    | nil =>
      rw [hcnt]
      have : greensCnt (s :: ss) [] c = 0 := rfl
      omega
    | cons g gs =>
      have hih := ih gs c
      have hgc : greensCnt (s :: ss) (g :: gs) c
          = (if s = g ∧ s = c then 1 else 0) + greensCnt ss gs c := rfl
      have hhead : (if s = g ∧ s = c then 1 else 0) ≤ (if s = c then 1 else 0) := by
        by_cases hand : s = g ∧ s = c
        · simp [hand, hand.2]
        · simp [hand]
      rw [hgc, hcnt]
      omega

theorem greensCnt_le_count_right (ss : List Char) :
    ∀ (gs : List Char) (c : Char), greensCnt ss gs c ≤ gs.count c := by
  induction ss with
  | nil => intro gs c; cases gs <;> simp [greensCnt]
  | cons s ss ih =>
    intro gs c
    cases gs with
    | nil => simp [greensCnt]
    | cons g gs =>
      have hcnt : (g :: gs).count c = gs.count c + (if g = c then 1 else 0) := by
        by_cases hgc : g = c <;> simp [List.count_cons, hgc]
      have hih := ih gs c
      have hgcnt : greensCnt (s :: ss) (g :: gs) c
          = (if s = g ∧ s = c then 1 else 0) + greensCnt ss gs c := rfl
      have hhead : (if s = g ∧ s = c then 1 else 0) ≤ (if g = c then 1 else 0) := by
        by_cases hand : s = g ∧ s = c
        · have hgceq : g = c := hand.1 ▸ hand.2
          simp [hand, hgceq]
        · simp [hand]
      rw [hgcnt, hcnt]
      omega

theorem ngCount_greensList (ss : List Char) :
    ∀ (gs : List Char) (c : Char), ss.length = gs.length →
      ngCount (greensList ss gs) gs c + greensCnt ss gs c = gs.count c := by
  induction ss with
  | nil =>
    intro gs c h
    cases gs with
    | nil => simp [ngCount, greensList, greensCnt]
    | cons g gs => simp at h
  | cons s ss ih =>
    intro gs c h
    cases gs with
    | nil => simp at h
    | cons g gs =>
      have h' : ss.length = gs.length := by simpa using h
      have hih := ih gs c h'
      have hcnt : (g :: gs).count c = gs.count c + (if g = c then 1 else 0) := by
        by_cases hgc : g = c <;> simp [List.count_cons, hgc]
      rw [hcnt]
      by_cases hsg : s = g
      · have hgl : greensList (s :: ss) (g :: gs) = Green :: greensList ss gs := by
          simp [greensList, hsg]
        have hng : ngCount (greensList (s :: ss) (g :: gs)) (g :: gs) c
            = ngCount (greensList ss gs) gs c := by
          rw [hgl]
          simp [ngCount]
        have hgcnt : greensCnt (s :: ss) (g :: gs) c
            = (if g = c then 1 else 0) + greensCnt ss gs c := by
          show (if s = g ∧ s = c then 1 else 0) + greensCnt ss gs c = _
          subst hsg
          by_cases hsc : s = c <;> simp [hsc]
        rw [hng, hgcnt]
        omega
      · have hgl : greensList (s :: ss) (g :: gs) = Gray :: greensList ss gs := by
          simp [greensList, hsg]
        have hng : ngCount (greensList (s :: ss) (g :: gs)) (g :: gs) c
            = (if g = c then 1 else 0) + ngCount (greensList ss gs) gs c := by
          rw [hgl]
          show (if Gray ≠ Green ∧ g = c then 1 else 0) + _ = _
          by_cases hgc : g = c <;> simp [hgc]
        have hgcnt : greensCnt (s :: ss) (g :: gs) c = greensCnt ss gs c := by
          show (if s = g ∧ s = c then 1 else 0) + greensCnt ss gs c = _
          have hand : ¬ (s = g ∧ s = c) := fun hh => hsg hh.1
          simp [hand]
        rw [hng, hgcnt]
        omega

/-- The budget-intersection scorer of `Wordle._make_guess` agrees with the
spec's full-frequency-table reference scorer on equal-length inputs. -/
theorem score_eq_specScore (secret guess : List Char) (h : secret.length = guess.length) :
    score secret guess = specScore secret guess := by
  have hpad : secret.length - guess.length = 0 := by omega
  show yellowPass ((greenPass secret guess (overlapInit secret guess)).1
      ++ List.replicate (secret.length - guess.length) Gray) guess
      (greenPass secret guess (overlapInit secret guess)).2
    = specYellowPass (specGreenPass secret guess (specTable secret)).1 guess
      (specGreenPass secret guess (specTable secret)).2
  rw [hpad, List.replicate_zero, List.append_nil, greenPass_fst, specGreenPass_fst]
  apply yellowPass_eq_spec
  · exact greensList_no_yellow secret guess
  · intro c
    rw [greenPass_snd, specGreenPass_snd]
    have h1 := greensCnt_le_count_left secret guess c
    have h2 := greensCnt_le_count_right secret guess c
    have h3 := ngCount_greensList secret guess c h
    show min (secret.count c : Int) (guess.count c : Int) - (greensCnt secret guess c : Int)
      = min ((specTable secret c - greensCnt secret guess c : Nat) : Int)
          ((ngCount (greensList secret guess) guess c : Nat) : Int)
    show min (secret.count c : Int) (guess.count c : Int) - (greensCnt secret guess c : Int)
      = min ((secret.count c - greensCnt secret guess c : Nat) : Int)
          ((ngCount (greensList secret guess) guess c : Nat) : Int)
    omega

/-- C1: the implemented scorer equals the spec's reference algorithm. For
every secret and guess of equal length, the result of the scoring core of
`Wordle._make_guess` (budget initialised as the counter intersection of
secret and guess counts, `Green` marked on positional matches with
decrement, then `Yellow` on remaining positions with positive budget, else
`Gray`) is position-for-position equal to the spec's two-pass algorithm
(full secret frequency table, `Correct` consumed first, then
`Present`/`Absent` assigned left to right). -/
theorem make_guess_scorer_refines_spec (secret guess : List Char)
    (h : secret.length = guess.length) :
    score secret guess = specScore secret guess :=
  score_eq_specScore secret guess h

theorem make_guess_scorer_refines_spec_witness :
    "ERODE".toList.length = "EERIE".toList.length ∧
      score "ERODE".toList "EERIE".toList = specScore "ERODE".toList "EERIE".toList :=
  ⟨by decide, make_guess_scorer_refines_spec "ERODE".toList "EERIE".toList (by decide)⟩

/-- The per-character accumulated knowledge record `Constraint` of
`wordle.py`: at least `min_count` occurrences are known (exactly that many
when `min_is_exact`), plus positions known to hold the character and
positions known not to hold it. -/
structure Constraint where
  min_count : Nat
  min_is_exact : Bool
  known_positions : Finset Nat
  known_not_positions : Finset Nat
deriving DecidableEq

/-- `Constraint.update` of `wordle.py`: the existing constraint (`self`)
absorbs a newly derived one (`u`). Python mutates `self` in place; here the
updated value is returned, with each failing `assert` becoming `none`. -/
def Constraint.update (self u : Constraint) : Option Constraint :=
  match
    (if u.min_count > self.min_count then
      if self.min_is_exact then none
      else some (u.min_count, u.min_is_exact)
    else if u.min_count = self.min_count then
      some (self.min_count, self.min_is_exact || u.min_is_exact)
    else
      if u.min_is_exact then none
      else some (self.min_count, self.min_is_exact) : Option (Nat × Bool))
  with
  | none => none
  | some cm =>
    let kp := self.known_positions ∪ u.known_positions
    let knp := self.known_not_positions ∪ u.known_not_positions
    if kp ∩ knp = ∅ then some ⟨cm.1, cm.2, kp, knp⟩ else none

/-- `Constraint.merge` of `wordle.py`: same combination rule as `update`
but produces a new value from `a` and `b` without mutating either. -/
def Constraint.merge (a b : Constraint) : Option Constraint :=
  match
    (if a.min_count > b.min_count then
      if b.min_is_exact then none
      else some (a.min_count, a.min_is_exact)
    else if a.min_count = b.min_count then
      some (a.min_count, a.min_is_exact || b.min_is_exact)
    else
      if a.min_is_exact then none
      else some (b.min_count, b.min_is_exact) : Option (Nat × Bool))
  with
  | none => none
  | some cm =>
    let kp := a.known_positions ∪ b.known_positions
    let knp := a.known_not_positions ∪ b.known_not_positions
    if kp ∩ knp = ∅ then some ⟨cm.1, cm.2, kp, knp⟩ else none

/-- `Constraint.from_result` of `wordle.py`: derive one character's
constraint from the set of guess positions holding it and the full scored
result (an out-of-range position reads as `Gray`; the Python code is only
called with in-range position sets). -/
def Constraint.from_result (indexes : Finset Nat) (result : List CharResult) : Constraint where
  min_count := (indexes.filter fun i => result.getD i Gray = Green).card
    + (indexes.filter fun i => result.getD i Gray = Yellow).card
  min_is_exact := decide ((indexes.filter fun i => result.getD i Gray = Gray).card ≠ 0)
  known_positions := indexes.filter fun i => result.getD i Gray = Green
  known_not_positions := indexes.filter fun i => ¬ result.getD i Gray = Green

/-- `build_char_indexes` of `wordle.py`, read at one character: the set of
positions of `guess` holding `c`. -/
def build_char_indexes (guess : List Char) (c : Char) : Finset Nat :=
  (Finset.range guess.length).filter fun i => guess.getD i default = c

/-- The distinct characters of the guess in first-occurrence order: the
iteration order of `build_char_indexes(guess).items()` (Python dict
insertion order). -/
def distinctChars : List Char → List Char
  | [] => []
  | g :: gs => g :: (distinctChars gs).filter fun x => x != g

/-- The game session `Wordle` of `wordle.py`: hard-mode flag, secret word,
and the per-character constraint table (a Python dict embedded as an
association list in key-insertion order). The cached `_char_counts` is the
pure function `counter(word)` and is recomputed where used. -/
structure Wordle where
  hard_mode : Bool
  word : List Char
  constraints : List (Char × Constraint)
deriving DecidableEq

/-- `Wordle.__init__`: constructing a session raises `ValueError` on an
empty word, and starts with an empty constraint table. -/
def mk_wordle (word : List Char) (hard_mode : Bool) : Option Wordle :=
  if word = [] then none
  else some ⟨hard_mode, word, []⟩

/-- Dictionary read `self._constraints.get(char)`. -/
def lookupC (c : Char) : List (Char × Constraint) → Option Constraint
  | [] => none
  | p :: ps => if p.1 = c then some p.2 else lookupC c ps

/-- Dictionary write `self._constraints[char] = v`: an existing key keeps
its place, a new key is appended (Python dict insertion order). -/
def setC (tbl : List (Char × Constraint)) (c : Char) (v : Constraint) :
    List (Char × Constraint) :=
  match lookupC c tbl with
  | some _ => tbl.map fun p => if p.1 = c then (c, v) else p
  | none => tbl ++ [(c, v)]

/-- The per-character body of the hard-mode loop in `Wordle.is_legal`. -/
def charOk (guess : List Char) (c : Char) (k : Constraint) : Bool :=
  let count := guess.count c
  let wrong_count : Bool :=
    if k.min_is_exact then decide (¬ count = k.min_count) else decide (count < k.min_count)
  let missing_known_positions : Bool :=
    decide (∃ i ∈ k.known_positions, ¬ guess.getD i default = c)
  let present_known_not_positions : Bool :=
    decide (∃ i ∈ k.known_not_positions, guess.getD i default = c)
  !(wrong_count || missing_known_positions || present_known_not_positions)

/-- `Wordle.is_legal`: false on a length mismatch; in hard mode every
accumulated constraint must also pass `charOk`. -/
def Wordle.is_legal (w : Wordle) (guess : List Char) : Bool :=
  if ¬ guess.length = w.word.length then false
  else if w.hard_mode then
    w.constraints.all fun p => charOk guess p.1 p.2
  else true

/-- The per-character checks of `Wordle._verify_is_legal` (note the Python
`elif`: the below-minimum check is reached only when the exact-count check
did not already raise). -/
def verifyCharOk (guess : List Char) (c : Char) (k : Constraint) : Bool :=
  let count := guess.count c
  if k.min_is_exact ∧ ¬ count = k.min_count then false
  else if count < k.min_count then false
  else if ∃ i ∈ k.known_positions, ¬ guess.getD i default = c then false
  else if ∃ i ∈ k.known_not_positions, guess.getD i default = c then false
  else true

/-- `Wordle._verify_is_legal`: the same rules as `is_legal` but raising
(`none`) instead of returning a boolean, with an extra empty-guess check. -/
def Wordle.verify_is_legal (w : Wordle) (guess : List Char) : Option Unit :=
  if guess = [] then none
  else if ¬ guess.length = w.word.length then none
  else if w.hard_mode then
    if w.constraints.all (fun p => verifyCharOk guess p.1 p.2) then some () else none
  else some ()

/-- `Wordle._make_guess`: reject an empty guess, verify legality, then run
the two scoring loops. -/
def Wordle.make_guess_inner (w : Wordle) (guess : List Char) : Option (List CharResult) :=
  if guess = [] then none
  else
    match w.verify_is_legal guess with
    | none => none
    | some _ => some (score w.word guess)

/-- The loop of `Wordle._update_constraints`, folded over the distinct
guess characters: derive each character's constraint via `from_result`,
then `update` (mutating path) or `merge` (functional path) it into the
table; a failed `assert` aborts with `none`. -/
def updateConstraintsAux (guess : List Char) (result : List CharResult) (mutate_inner : Bool) :
    List Char → List (Char × Constraint) → Option (List (Char × Constraint))
  | [], tbl => some tbl
  | c :: cs, tbl =>
    match lookupC c tbl with
    | some oldc =>
      match (if mutate_inner then
          oldc.update (Constraint.from_result (build_char_indexes guess c) result)
        else
          Constraint.merge oldc (Constraint.from_result (build_char_indexes guess c) result)) with
      | some k => updateConstraintsAux guess result mutate_inner cs (setC tbl c k)
      | none => none
    | none =>
      updateConstraintsAux guess result mutate_inner cs
        (setC tbl c (Constraint.from_result (build_char_indexes guess c) result))

/-- `Wordle._update_constraints`. -/
def Wordle.update_constraints (w : Wordle) (guess : List Char) (result : List CharResult)
    (mutate_inner : Bool) : Option Wordle :=
  match updateConstraintsAux guess result mutate_inner (distinctChars guess) w.constraints with
  | none => none
  | some tbl => some { w with constraints := tbl }

/-- `Wordle.make_guess`: score the guess, then update the constraint table
in place; returns the new session state together with the result. -/
def Wordle.make_guess (w : Wordle) (guess : List Char) : Option (Wordle × List CharResult) :=
  match w.make_guess_inner guess with
  | none => none
  | some result =>
    match w.update_constraints guess result true with
    | none => none
    | some w' => some (w', result)

/-- `Wordle.copy_make_guess`: score the guess, build a fresh session
`Wordle(word, hard_mode)` with a shallow copy of the constraint table, and
apply the functional merge path to the copy. -/
def Wordle.copy_make_guess (w : Wordle) (guess : List Char) :
    Option (Wordle × List CharResult) :=
  match w.make_guess_inner guess with
  | none => none
  | some result =>
    match mk_wordle w.word w.hard_mode with
    | none => none
    | some c0 =>
      match { c0 with constraints := w.constraints : Wordle }.update_constraints
          guess result false with
      | none => none
      | some c => some (c, result)

/-- A sequence of in-place guess submissions starting from a session. -/
def play (w : Wordle) : List (List Char) → Option Wordle
  | [] => some w
  | g :: gss =>
    match w.make_guess g with
    | none => none
    | some (w', _) => play w' gss

/-- C2: counterexample. Scoring guess "EERIE" against secret "ERODE" in the
code does not produce the spec's stated sequence
[Correct, Present, Absent, Absent, Correct]
(= [Green, Yellow, Gray, Gray, Green]); the claim as stated is false. -/
theorem eerie_vs_erode_claimed_result_false :
    ¬ (Wordle.make_guess_inner ⟨false, "ERODE".toList, []⟩ "EERIE".toList
        = some [Green, Yellow, Gray, Gray, Green]) := by
  decide

/-- C2 (amended): scoring the guess "EERIE" against the secret "ERODE"
yields exactly [Correct, Absent, Present, Absent, Correct]: position 0
Correct, position 1 Absent (both secret E's are consumed by the Correct
matches at positions 0 and 4), position 2 Present (the secret's R),
position 3 Absent, position 4 Correct. -/
theorem eerie_vs_erode_result :
    Wordle.make_guess_inner ⟨false, "ERODE".toList, []⟩ "EERIE".toList
      = some [Green, Gray, Yellow, Gray, Green] := by
  decide

/-- C3: for every character's set of guess positions and every scored
result covering those positions, `Constraint.from_result` yields:
`min_count` = number of those positions scored `Correct` (`Green`) plus
number scored `Present` (`Yellow`); `min_is_exact` true iff at least one
position scored `Absent` (`Gray`); `known_positions` = exactly the subset
scored `Correct`; `known_not_positions` = exactly the subset scored
anything other than `Correct`. -/
theorem from_result_spec (indexes : Finset Nat) (result : List CharResult)
    (_hcov : ∀ i ∈ indexes, i < result.length) :
    (Constraint.from_result indexes result).min_count
        = (indexes.filter fun i => result.getD i Gray = Green).card
          + (indexes.filter fun i => result.getD i Gray = Yellow).card
      ∧ ((Constraint.from_result indexes result).min_is_exact = true
          ↔ ∃ i ∈ indexes, result.getD i Gray = Gray)
      ∧ (∀ i, i ∈ (Constraint.from_result indexes result).known_positions
          ↔ i ∈ indexes ∧ result.getD i Gray = Green)
      ∧ (∀ i, i ∈ (Constraint.from_result indexes result).known_not_positions
          ↔ i ∈ indexes ∧ ¬ result.getD i Gray = Green) := by
  refine ⟨rfl, ?_, ?_, ?_⟩
  · show decide ((indexes.filter fun i => result.getD i Gray = Gray).card ≠ 0) = true ↔ _
    rw [decide_eq_true_iff, Ne, Finset.card_eq_zero]
    constructor
    · intro h
      rcases Finset.nonempty_iff_ne_empty.2 h with ⟨i, hi⟩
      rcases Finset.mem_filter.1 hi with ⟨hmem, hval⟩
      exact ⟨i, hmem, hval⟩
    · rintro ⟨i, hmem, hval⟩ hemp
      have : i ∈ (indexes.filter fun i => result.getD i Gray = Gray) :=
        Finset.mem_filter.2 ⟨hmem, hval⟩
      rw [hemp] at this
      exact absurd this (Finset.not_mem_empty i)
  · intro i
    exact Finset.mem_filter
  · intro i
    exact Finset.mem_filter

theorem from_result_spec_witness :
    (∀ i ∈ ({0, 1} : Finset Nat), i < [Green, Gray].length)
      ∧ ((Constraint.from_result {0, 1} [Green, Gray]).min_is_exact = true
          ↔ ∃ i ∈ ({0, 1} : Finset Nat), [Green, Gray].getD i Gray = Gray) :=
  ⟨by decide, (from_result_spec {0, 1} [Green, Gray] (by decide)).2.1⟩

/-- `charOk` spelled out: count within bound (exactly when exact), every
known position holds the character, no known-not position does. -/
theorem charOk_iff (guess : List Char) (c : Char) (k : Constraint) :
    charOk guess c k = true ↔
      (if k.min_is_exact then guess.count c = k.min_count
        else k.min_count ≤ guess.count c)
      ∧ (∀ i ∈ k.known_positions, guess.getD i default = c)
      ∧ (∀ i ∈ k.known_not_positions, ¬ guess.getD i default = c) := by
  cases hex : k.min_is_exact with
  | false => simp [charOk, hex, not_lt, and_assoc]
  | true => simp [charOk, hex, and_assoc]

/-- C4: `is_legal(guess)` is false when the guess length differs from the
secret's; with hard mode off it is true for every length-matching guess;
with hard mode on it is true iff for every character with an accumulated
constraint the guess's count of that character equals `min_count` when
`min_is_exact` and is at least `min_count` otherwise, the guess holds the
character at every `known_positions` index, and not at any
`known_not_positions` index. -/
theorem is_legal_spec (w : Wordle) (guess : List Char) :
    (¬ guess.length = w.word.length → w.is_legal guess = false)
    ∧ (w.hard_mode = false → guess.length = w.word.length → w.is_legal guess = true)
    ∧ (w.hard_mode = true → guess.length = w.word.length →
        (w.is_legal guess = true ↔
          ∀ c k, (c, k) ∈ w.constraints →
            (if k.min_is_exact then guess.count c = k.min_count
              else k.min_count ≤ guess.count c)
            ∧ (∀ i ∈ k.known_positions, guess.getD i default = c)
            ∧ (∀ i ∈ k.known_not_positions, ¬ guess.getD i default = c))) := by
  refine ⟨?_, ?_, ?_⟩
  · intro h
    simp [Wordle.is_legal, h]
  · intro hh hlen
    simp [Wordle.is_legal, hlen, hh]
  · intro hh hlen
    have hleg : w.is_legal guess = w.constraints.all fun p => charOk guess p.1 p.2 := by
      simp [Wordle.is_legal, hlen, hh]
    rw [hleg, List.all_eq_true]
    constructor
    · intro hall c k hmem
      exact (charOk_iff guess c k).1 (hall (c, k) hmem)
    · intro hk p hmem
      exact (charOk_iff guess p.1 p.2).2 (hk p.1 p.2 hmem)

theorem is_legal_spec_witness :
    ¬ (['a'] : List Char).length = (['a', 'b'] : List Char).length ∧
      Wordle.is_legal ⟨false, ['a', 'b'], []⟩ ['a'] = false :=
  ⟨by decide, (is_legal_spec ⟨false, ['a', 'b'], []⟩ ['a']).1 (by decide)⟩

/-- `Constraint.update` and `Constraint.merge` implement the same
combination rule: the in-place path and the functional path agree. -/
theorem update_eq_merge (a b : Constraint) : a.update b = Constraint.merge a b := by
  unfold Constraint.update Constraint.merge
  rcases Nat.lt_trichotomy a.min_count b.min_count with h | h | h
  · have h1 : b.min_count > a.min_count := h
    have h2 : ¬ a.min_count > b.min_count := by omega
    have h3 : ¬ a.min_count = b.min_count := by omega
    have h4 : ¬ b.min_count = a.min_count := by omega
    simp [h1, h2, h3, h4]
  · have h1 : ¬ b.min_count > a.min_count := by omega
    have h2 : ¬ a.min_count > b.min_count := by omega
    simp [h]
  · have h1 : ¬ b.min_count > a.min_count := by omega
    have h2 : a.min_count > b.min_count := h
    have h3 : ¬ a.min_count = b.min_count := by omega
    have h4 : ¬ b.min_count = a.min_count := by omega
    simp [h1, h2, h3, h4]

/-- The constraint-table fold computes the same table on the mutating
(`update`) and functional (`merge`) paths. -/
theorem updateConstraintsAux_mutate_irrel (guess : List Char) (result : List CharResult)
    (cs : List Char) :
    ∀ tbl, updateConstraintsAux guess result true cs tbl
      = updateConstraintsAux guess result false cs tbl := by
  induction cs with
  | nil => intro tbl; rfl
  | cons c cs ih =>
    intro tbl
    simp only [updateConstraintsAux]
    cases lookupC c tbl with
    | none => exact ih _
    | some oldc =>
      simp only [update_eq_merge, if_true, if_false, Bool.false_eq_true, ite_true, ite_false]
      cases Constraint.merge oldc (Constraint.from_result (build_char_indexes guess c) result) with
      | none => rfl
      | some k => exact ih _

theorem verify_is_legal_some_shape {w : Wordle} {guess : List Char} {u : Unit}
    (h : w.verify_is_legal guess = some u) :
    ¬ guess = [] ∧ guess.length = w.word.length := by
  unfold Wordle.verify_is_legal at h
  by_cases hg : guess = []
  · simp [hg] at h
  · refine ⟨hg, ?_⟩
    by_cases hl : guess.length = w.word.length
    · exact hl
    · simp [hg, hl] at h

theorem make_guess_inner_some_shape {w : Wordle} {guess : List Char} {r : List CharResult}
    (h : w.make_guess_inner guess = some r) :
    ¬ guess = [] ∧ guess.length = w.word.length ∧ r = score w.word guess := by
  unfold Wordle.make_guess_inner at h
  by_cases hg : guess = []
  · simp [hg] at h
  · rw [if_neg hg] at h
    cases hv : w.verify_is_legal guess with
    | none => rw [hv] at h; cases h
    | some uu =>
      rw [hv] at h
      rcases verify_is_legal_some_shape hv with ⟨h1, h2⟩
      exact ⟨h1, h2, (Option.some_injective _ h).symm⟩

/-- C8: for every session and guess, `copy_make_guess` computes exactly the
session-and-result pair that `make_guess` computes (same validation, same
score, and a forked constraint table equal to the one the in-place path
builds, since `merge` and `update` agree); in the functional embedding the
original session value is untouched by construction, matching the shallow
table copy plus never-mutating `merge` in the source. -/
theorem copy_make_guess_eq_make_guess (w : Wordle) (guess : List Char) :
    w.copy_make_guess guess = w.make_guess guess := by
  cases w with
  | mk hard word constraints =>
    unfold Wordle.copy_make_guess Wordle.make_guess
    cases hres : Wordle.make_guess_inner ⟨hard, word, constraints⟩ guess with
    | none => rfl
    | some result =>
      rcases make_guess_inner_some_shape hres with ⟨hg, hlen, _⟩
      have hword : ¬ word = [] := by
        intro hw
        subst hw
        simp at hlen
        exact hg hlen
      have hmk : mk_wordle word hard = some ⟨hard, word, []⟩ := by
        simp [mk_wordle, hword]
      rw [hmk]
      show (match Wordle.update_constraints ⟨hard, word, constraints⟩ guess result false with
        | none => none
        | some c => some (c, result))
        = (match Wordle.update_constraints ⟨hard, word, constraints⟩ guess result true with
        | none => none
        | some w' => some (w', result))
      unfold Wordle.update_constraints
      rw [updateConstraintsAux_mutate_irrel]

theorem specYellowPass_length (rs : List CharResult) :
    ∀ (gs : List Char) (tbl : Char → Nat), (specYellowPass rs gs tbl).length = rs.length := by
  induction rs with
  | nil => intro gs tbl; cases gs <;> simp [specYellowPass]
  | cons r rs ih =>
    intro gs tbl
    cases gs with
    | nil => simp [specYellowPass]
    | cons g gs =>
      by_cases hr : r = Green
      · simp [specYellowPass, hr, ih]
      · by_cases hb : 0 < tbl g <;> simp [specYellowPass, hr, hb, ih]

theorem specYellowPass_green_iff (rs : List CharResult) :
    ∀ (gs : List Char) (tbl : Char → Nat) (i : Nat),
      ((specYellowPass rs gs tbl).getD i Gray = Green ↔ rs.getD i Gray = Green) := by
  induction rs with
  | nil => intro gs tbl i; cases gs <;> simp [specYellowPass]
  | cons r rs ih =>
    intro gs tbl i
    cases gs with
    | nil => simp [specYellowPass]
    | cons g gs =>
      by_cases hr : r = Green
      · subst hr
        cases i with
        | zero => simp [specYellowPass]
        | succ i =>
          have hout : specYellowPass (Green :: rs) (g :: gs) tbl
              = Green :: specYellowPass rs gs tbl := by
            simp [specYellowPass]
          rw [hout, List.getD_cons_succ, List.getD_cons_succ]
          exact ih gs tbl i
      · by_cases hb : 0 < tbl g
        · cases i with
          | zero =>
            have h1 : (specYellowPass (r :: rs) (g :: gs) tbl).getD 0 Gray = Yellow := by
              simp [specYellowPass, hr, hb]
            rw [h1]
            simp [hr]
          | succ i =>
            have h1 : (specYellowPass (r :: rs) (g :: gs) tbl).getD (i + 1) Gray
                = (specYellowPass rs gs (decrN tbl g)).getD i Gray := by
              simp [specYellowPass, hr, hb, List.getD_cons_succ]
            rw [h1, ih]
            simp [List.getD_cons_succ]
        · cases i with
          | zero =>
            have h1 : (specYellowPass (r :: rs) (g :: gs) tbl).getD 0 Gray = Gray := by
              simp [specYellowPass, hr, hb]
            rw [h1]
            simp [hr]
          | succ i =>
            have h1 : (specYellowPass (r :: rs) (g :: gs) tbl).getD (i + 1) Gray
                = (specYellowPass rs gs tbl).getD i Gray := by
              simp [specYellowPass, hr, hb, List.getD_cons_succ]
            rw [h1, ih]
            simp [List.getD_cons_succ]

theorem specYellowPass_yellow_count (rs : List CharResult) :
    ∀ (gs : List Char) (tbl : Char → Nat) (c : Char),
      (∀ r ∈ rs, r ≠ Yellow) →
      matchCnt (specYellowPass rs gs tbl) gs c Yellow = min (tbl c) (ngCount rs gs c) := by
  induction rs with
  | nil => intro gs tbl c _; cases gs <;> simp [specYellowPass, matchCnt, ngCount]
  | cons r rs ih =>
    intro gs tbl c hny
    have hny' : ∀ x ∈ rs, x ≠ Yellow := fun x hx => hny x (List.mem_cons_of_mem r hx)
    cases gs with
    | nil => simp [specYellowPass, matchCnt, ngCount]
    | cons g gs =>
      by_cases hr : r = Green
      · subst hr
        have hout : specYellowPass (Green :: rs) (g :: gs) tbl
            = Green :: specYellowPass rs gs tbl := by
          simp [specYellowPass]
        rw [hout]
        have hm : matchCnt (Green :: specYellowPass rs gs tbl) (g :: gs) c Yellow
            = matchCnt (specYellowPass rs gs tbl) gs c Yellow := by
          show (if g = c ∧ Green = Yellow then 1 else 0) + _ = _
          simp
        have hn : ngCount (Green :: rs) (g :: gs) c = ngCount rs gs c := by
          show (if Green ≠ Green ∧ g = c then 1 else 0) + _ = _
          simp
        rw [hm, hn, ih gs tbl c hny']
      · have hng : ngCount (r :: rs) (g :: gs) c
            = (if g = c then 1 else 0) + ngCount rs gs c := by
          show (if r ≠ Green ∧ g = c then 1 else 0) + _ = _
          by_cases hgc : g = c <;> simp [hgc, hr]
        by_cases hb : 0 < tbl g
        · have hout : specYellowPass (r :: rs) (g :: gs) tbl
              = Yellow :: specYellowPass rs gs (decrN tbl g) := by
            simp [specYellowPass, hr, hb]
          rw [hout]
          have hm : matchCnt (Yellow :: specYellowPass rs gs (decrN tbl g)) (g :: gs) c Yellow
              = (if g = c then 1 else 0)
                + matchCnt (specYellowPass rs gs (decrN tbl g)) gs c Yellow := by
            show (if g = c ∧ Yellow = Yellow then 1 else 0) + _ = _
            by_cases hgc : g = c <;> simp [hgc]
          rw [hm, hng, ih gs (decrN tbl g) c hny']
          by_cases hgc : g = c
          · subst hgc
            have hd : decrN tbl g g = tbl g - 1 := by simp [decrN]
            have h1 : (if g = g then (1 : Nat) else 0) = 1 := by simp
            rw [hd, h1]
            omega
          · have hcg : ¬ c = g := fun hh => hgc hh.symm
            have hd : decrN tbl g c = tbl c := by simp [decrN, hcg]
            have h0 : (if g = c then (1 : Nat) else 0) = 0 := by simp [hgc]
            rw [hd, h0]
            omega
        · have hout : specYellowPass (r :: rs) (g :: gs) tbl
              = Gray :: specYellowPass rs gs tbl := by
            simp [specYellowPass, hr, hb]
          rw [hout]
          have hm : matchCnt (Gray :: specYellowPass rs gs tbl) (g :: gs) c Yellow
              = matchCnt (specYellowPass rs gs tbl) gs c Yellow := by
            show (if g = c ∧ Gray = Yellow then 1 else 0) + _ = _
            simp
          rw [hm, hng, ih gs tbl c hny']
          by_cases hgc : g = c
          · subst hgc
            have hz : tbl g = 0 := by omega
            have h1 : (if g = g then (1 : Nat) else 0) = 1 := by simp
            rw [hz, h1]
            omega
          · have h0 : (if g = c then (1 : Nat) else 0) = 0 := by simp [hgc]
            rw [h0]
            omega

theorem specYellowPass_green_count (rs : List CharResult) :
    ∀ (gs : List Char) (tbl : Char → Nat) (c : Char),
      matchCnt (specYellowPass rs gs tbl) gs c Green = matchCnt rs gs c Green := by
  induction rs with
  | nil => intro gs tbl c; cases gs <;> simp [specYellowPass, matchCnt]
  | cons r rs ih =>
    intro gs tbl c
    cases gs with
    | nil => simp [specYellowPass, matchCnt]
    | cons g gs =>
      by_cases hr : r = Green
      · subst hr
        have hout : specYellowPass (Green :: rs) (g :: gs) tbl
            = Green :: specYellowPass rs gs tbl := by
          simp [specYellowPass]
        rw [hout]
        show (if g = c ∧ Green = Green then 1 else 0) + _
          = (if g = c ∧ Green = Green then 1 else 0) + _
        rw [ih]
      · by_cases hb : 0 < tbl g
        · have hout : specYellowPass (r :: rs) (g :: gs) tbl
              = Yellow :: specYellowPass rs gs (decrN tbl g) := by
            simp [specYellowPass, hr, hb]
          rw [hout]
          show (if g = c ∧ Yellow = Green then 1 else 0) + _
            = (if g = c ∧ r = Green then 1 else 0) + _
          rw [ih]
          simp [hr]
        · have hout : specYellowPass (r :: rs) (g :: gs) tbl
              = Gray :: specYellowPass rs gs tbl := by
            simp [specYellowPass, hr, hb]
          rw [hout]
          show (if g = c ∧ Gray = Green then 1 else 0) + _
            = (if g = c ∧ r = Green then 1 else 0) + _
          rw [ih]
          simp [hr]

theorem matchCnt_partition (out : List CharResult) :
    ∀ (gs : List Char) (c : Char), out.length = gs.length →
      matchCnt out gs c Green + matchCnt out gs c Yellow + matchCnt out gs c Gray
        = gs.count c := by
  induction out with
  | nil =>
    intro gs c h
    cases gs with
    | nil => simp [matchCnt]
    | cons g gs => simp at h
  | cons r out ih =>
    intro gs c h
    cases gs with
    | nil => simp at h
    | cons g gs =>
      have h' : out.length = gs.length := by simpa using h
      have hcnt : (g :: gs).count c = gs.count c + (if g = c then 1 else 0) := by
        by_cases hgc : g = c <;> simp [List.count_cons, hgc]
      have hih := ih gs c h'
      have e1 : matchCnt (r :: out) (g :: gs) c Green
          = (if g = c ∧ r = Green then 1 else 0) + matchCnt out gs c Green := rfl
      have e2 : matchCnt (r :: out) (g :: gs) c Yellow
          = (if g = c ∧ r = Yellow then 1 else 0) + matchCnt out gs c Yellow := rfl
      have e3 : matchCnt (r :: out) (g :: gs) c Gray
          = (if g = c ∧ r = Gray then 1 else 0) + matchCnt out gs c Gray := rfl
      rw [e1, e2, e3, hcnt]
      have hhead : (if g = c ∧ r = Green then 1 else 0) + (if g = c ∧ r = Yellow then 1 else 0)
          + (if g = c ∧ r = Gray then 1 else 0) = (if g = c then 1 else 0) := by
        by_cases hgc : g = c
        · cases r <;> simp [hgc]
        · simp [hgc]
      omega

theorem greensList_getD_green (ss : List Char) :
    ∀ (gs : List Char) (i : Nat), i < ss.length → i < gs.length →
      ((greensList ss gs).getD i Gray = Green
        ↔ ss.getD i default = gs.getD i default) := by
  induction ss with
  | nil => intro gs i h _; simp at h
  | cons s ss ih =>
    intro gs i hs hg
    cases gs with
    | nil => simp at hg
    | cons g gs =>
      cases i with
      | zero =>
        show ((if s = g then Green else Gray) :: greensList ss gs).getD 0 Gray = Green ↔ _
        by_cases hsg : s = g <;> simp [hsg]
      | succ i =>
        have hs' : i < ss.length := by simpa using hs
        have hg' : i < gs.length := by simpa using hg
        show ((if s = g then Green else Gray) :: greensList ss gs).getD (i + 1) Gray = Green ↔ _
        rw [List.getD_cons_succ, List.getD_cons_succ, List.getD_cons_succ]
        exact ih gs i hs' hg'

theorem card_filter_indexes (out : List CharResult) :
    ∀ (gs : List Char) (c : Char) (v : CharResult), out.length = gs.length →
      ((build_char_indexes gs c).filter fun i => out.getD i Gray = v).card
        = matchCnt out gs c v := by
  induction out with
  | nil =>
    intro gs c v h
    have hgs : gs = [] := by
      cases gs
      · rfl
      · simp at h
    subst hgs
    simp [build_char_indexes, matchCnt]
  | cons r out ih =>
    intro gs c v h
    cases gs with
    | nil => simp at h
    | cons g gs =>
      have h' : out.length = gs.length := by simpa using h
      have key : ∀ (os : List CharResult) (hs : List Char),
          ((build_char_indexes hs c).filter fun i => os.getD i Gray = v).card
            = ∑ i in Finset.range hs.length,
                if hs.getD i default = c ∧ os.getD i Gray = v then 1 else 0 := by
        intro os hs
        rw [build_char_indexes, Finset.filter_filter, Finset.card_filter]
      rw [key]
      have hlen : (g :: gs).length = gs.length + 1 := rfl
      rw [hlen, Finset.sum_range_succ']
      have hshift : ∀ i : Nat,
          (if (g :: gs).getD (i + 1) default = c ∧ (r :: out).getD (i + 1) Gray = v
              then 1 else 0)
            = (if gs.getD i default = c ∧ out.getD i Gray = v then 1 else 0) := by
        intro i
        rw [List.getD_cons_succ, List.getD_cons_succ]
      rw [Finset.sum_congr rfl fun i _ => hshift i, ← key, ih gs c v h']
      have hhead : matchCnt (r :: out) (g :: gs) c v
          = (if g = c ∧ r = v then 1 else 0) + matchCnt out gs c v := rfl
      rw [hhead, List.getD_cons_zero, List.getD_cons_zero]
      omega

theorem matchCnt_greensList_green (ss : List Char) :
    ∀ (gs : List Char) (c : Char),
      matchCnt (greensList ss gs) gs c Green = greensCnt ss gs c := by
  induction ss with
  | nil => intro gs c; cases gs <;> simp [greensList, matchCnt, greensCnt]
  | cons s ss ih =>
    intro gs c
    cases gs with
    | nil => simp [greensList, matchCnt, greensCnt]
    | cons g gs =>
      by_cases hsg : s = g
      · have hgl : greensList (s :: ss) (g :: gs) = Green :: greensList ss gs := by
          simp [greensList, hsg]
        rw [hgl]
        show (if g = c ∧ Green = Green then 1 else 0) + matchCnt (greensList ss gs) gs c Green
          = (if s = g ∧ s = c then 1 else 0) + greensCnt ss gs c
        rw [ih]
        have he : (if g = c ∧ Green = Green then (1 : Nat) else 0)
            = (if s = g ∧ s = c then (1 : Nat) else 0) := by
          subst hsg
          by_cases hc : s = c <;> simp [hc]
        rw [he]
      · show (if g = c ∧ (if s = g then Green else Gray) = Green then 1 else 0)
            + matchCnt (greensList ss gs) gs c Green
          = (if s = g ∧ s = c then 1 else 0) + greensCnt ss gs c
        rw [ih]
        simp [hsg]

/-- A constraint is true of the secret: the count bound holds (exactly when
claimed exact), every known position holds the character, and no known-not
position does. This is the sense in which constraints derived from honest
score data describe the secret. -/
def ConstraintHolds (secret : List Char) (c : Char) (k : Constraint) : Prop :=
  (if k.min_is_exact then secret.count c = k.min_count else k.min_count ≤ secret.count c)
  ∧ (∀ i ∈ k.known_positions, secret.getD i default = c)
  ∧ (∀ i ∈ k.known_not_positions, ¬ secret.getD i default = c)

theorem greensList_length (ss : List Char) :
    ∀ gs : List Char, ss.length = gs.length → (greensList ss gs).length = gs.length := by
  induction ss with
  | nil =>
    intro gs hl
    cases gs with
    | nil => simp [greensList]
    | cons g gs => simp at hl
  | cons s ss ih =>
    intro gs hl
    cases gs with
    | nil => simp at hl
    | cons g gs =>
      have hl' : ss.length = gs.length := by simpa using hl
      show (greensList ss gs).length + 1 = gs.length + 1
      rw [ih gs hl']

theorem mem_build_char_indexes {guess : List Char} {c : Char} {i : Nat} :
    i ∈ build_char_indexes guess c ↔ i < guess.length ∧ guess.getD i default = c := by
  rw [build_char_indexes, Finset.mem_filter, Finset.mem_range]

theorem from_result_min_count (indexes : Finset Nat) (result : List CharResult) :
    (Constraint.from_result indexes result).min_count
      = (indexes.filter fun i => result.getD i Gray = Green).card
        + (indexes.filter fun i => result.getD i Gray = Yellow).card := rfl

theorem from_result_exact_iff (indexes : Finset Nat) (result : List CharResult) :
    (Constraint.from_result indexes result).min_is_exact = true
      ↔ (indexes.filter fun i => result.getD i Gray = Gray).card ≠ 0 := by
  show decide _ = true ↔ _
  rw [decide_eq_true_iff]

theorem from_result_known_positions (indexes : Finset Nat) (result : List CharResult) :
    (Constraint.from_result indexes result).known_positions
      = indexes.filter fun i => result.getD i Gray = Green := rfl

theorem from_result_known_not_positions (indexes : Finset Nat) (result : List CharResult) :
    (Constraint.from_result indexes result).known_not_positions
      = indexes.filter fun i => ¬ result.getD i Gray = Green := rfl

/-- Constraints derived by `from_result` from honestly scored results are
true of the secret. -/
theorem from_result_holds (secret guess : List Char) (c : Char)
    (h : secret.length = guess.length) :
    ConstraintHolds secret c
      (Constraint.from_result (build_char_indexes guess c) (score secret guess)) := by
  rw [score_eq_specScore secret guess h]
  have hout : specScore secret guess
      = specYellowPass (greensList secret guess) guess
          (specGreenPass secret guess (specTable secret)).2 := by
    show specYellowPass (specGreenPass secret guess (specTable secret)).1 guess _ = _
    rw [specGreenPass_fst]
  have hlen_r1 : (greensList secret guess).length = guess.length :=
    greensList_length secret guess h
  have hlen_out : (specScore secret guess).length = guess.length := by
    rw [hout, specYellowPass_length, hlen_r1]
  have hny := greensList_no_yellow secret guess
  have hMG : matchCnt (specScore secret guess) guess c Green = greensCnt secret guess c := by
    rw [hout, specYellowPass_green_count, matchCnt_greensList_green]
  have hMY : matchCnt (specScore secret guess) guess c Yellow
      = min ((specGreenPass secret guess (specTable secret)).2 c)
          (ngCount (greensList secret guess) guess c) := by
    rw [hout, specYellowPass_yellow_count _ _ _ _ hny]
  have hBc : (specGreenPass secret guess (specTable secret)).2 c
      = secret.count c - greensCnt secret guess c := by
    rw [specGreenPass_snd]
    rfl
  have hng : ngCount (greensList secret guess) guess c + greensCnt secret guess c
      = guess.count c := ngCount_greensList secret guess c h
  have hcardG := card_filter_indexes (specScore secret guess) guess c Green hlen_out
  have hcardY := card_filter_indexes (specScore secret guess) guess c Yellow hlen_out
  have hcardX := card_filter_indexes (specScore secret guess) guess c Gray hlen_out
  have hpart := matchCnt_partition (specScore secret guess) guess c hlen_out
  have hg1 := greensCnt_le_count_left secret guess c
  have hg2 := greensCnt_le_count_right secret guess c
  have hgreen_iff : ∀ i, (specScore secret guess).getD i Gray = Green
      ↔ (greensList secret guess).getD i Gray = Green := by
    intro i
    rw [hout]
    exact specYellowPass_green_iff _ _ _ _
  refine ⟨?_, ?_, ?_⟩
  · rw [from_result_min_count]
    cases hex : (Constraint.from_result (build_char_indexes guess c)
        (specScore secret guess)).min_is_exact with
    | true =>
      have hX : ((build_char_indexes guess c).filter
          fun i => (specScore secret guess).getD i Gray = Gray).card ≠ 0 :=
        (from_result_exact_iff _ _).1 hex
      simp only [if_true]
      rw [hcardG, hcardY, hMG, hMY, hBc]
      rw [hcardX] at hX
      omega
    | false =>
      simp only [if_false, Bool.false_eq_true]
      rw [hcardG, hcardY, hMG, hMY, hBc]
      omega
  · intro i hi
    rw [from_result_known_positions, Finset.mem_filter] at hi
    rcases hi with ⟨hbci, hgreen⟩
    rcases mem_build_char_indexes.1 hbci with ⟨hilt, hchar⟩
    have hr1 : (greensList secret guess).getD i Gray = Green := (hgreen_iff i).1 hgreen
    have hsec : secret.getD i default = guess.getD i default :=
      (greensList_getD_green secret guess i (h ▸ hilt) hilt).1 hr1
    rw [hsec, hchar]
  · intro i hi
    rw [from_result_known_not_positions, Finset.mem_filter] at hi
    rcases hi with ⟨hbci, hngreen⟩
    rcases mem_build_char_indexes.1 hbci with ⟨hilt, hchar⟩
    have hr1 : ¬ (greensList secret guess).getD i Gray = Green :=
      fun hh => hngreen ((hgreen_iff i).2 hh)
    have hsec : ¬ secret.getD i default = guess.getD i default :=
      fun hh => hr1 ((greensList_getD_green secret guess i (h ▸ hilt) hilt).2 hh)
    rw [hchar] at hsec
    exact hsec

theorem holds_count_le (secret : List Char) (c : Char) (k : Constraint)
    (hk : ConstraintHolds secret c k) : k.min_count ≤ secret.count c := by
  rcases hk with ⟨h1, _, _⟩
  cases hex : k.min_is_exact with
  | false => rw [hex] at h1; simpa using h1
  | true =>
    rw [hex] at h1
    simp only [if_true] at h1
    omega

theorem holds_exact_eq (secret : List Char) (c : Char) (k : Constraint)
    (hk : ConstraintHolds secret c k) (hex : k.min_is_exact = true) :
    secret.count c = k.min_count := by
  rcases hk with ⟨h1, _, _⟩
  rw [hex] at h1
  simpa using h1

/-- Structural inverse of a successful `merge`: the combined fields and the
side conditions the `assert`s enforced. -/
theorem merge_some_inv (a b k : Constraint) (h : Constraint.merge a b = some k) :
    k.known_positions = a.known_positions ∪ b.known_positions
    ∧ k.known_not_positions = a.known_not_positions ∪ b.known_not_positions
    ∧ k.known_positions ∩ k.known_not_positions = ∅
    ∧ k.min_count = max a.min_count b.min_count
    ∧ (a.min_count < b.min_count → a.min_is_exact = false)
    ∧ (b.min_count < a.min_count → b.min_is_exact = false)
    ∧ (a.min_is_exact = true → k.min_is_exact = true)
    ∧ (b.min_is_exact = true → k.min_is_exact = true)
    ∧ (k.min_is_exact = true → a.min_is_exact = true ∨ b.min_is_exact = true) := by
  unfold Constraint.merge at h
  rcases Nat.lt_trichotomy a.min_count b.min_count with hlt | heq | hgt
  · have h1 : ¬ a.min_count > b.min_count := by omega
    have h2 : ¬ a.min_count = b.min_count := by omega
    rw [if_neg h1, if_neg h2] at h
    cases hae : a.min_is_exact with
    | true => rw [hae] at h; simp at h
    | false =>
      rw [hae] at h
      simp only [Bool.false_eq_true, if_false] at h
      by_cases hd : (a.known_positions ∪ b.known_positions)
          ∩ (a.known_not_positions ∪ b.known_not_positions) = ∅
      · rw [if_pos hd] at h
        have hk := (Option.some_injective _ h).symm
        subst hk
        refine ⟨rfl, rfl, hd, ?_, fun _ => rfl, ?_, ?_, ?_, ?_⟩
        · show b.min_count = max a.min_count b.min_count
          omega
        · intro hh
          exact ((by omega : False).elim)
        · intro hh
          simp at hh
        · intro hh
          exact hh
        · intro hh
          exact Or.inr hh
      · rw [if_neg hd] at h
        cases h
  · have h1 : ¬ a.min_count > b.min_count := by omega
    rw [if_neg h1, if_pos heq] at h
    dsimp only at h
    by_cases hd : (a.known_positions ∪ b.known_positions)
        ∩ (a.known_not_positions ∪ b.known_not_positions) = ∅
    · rw [if_pos hd] at h
      have hk := (Option.some_injective _ h).symm
      subst hk
      refine ⟨rfl, rfl, hd, ?_, ?_, ?_, ?_, ?_, ?_⟩
      · show a.min_count = max a.min_count b.min_count
        omega
      · intro hh
        exact ((by omega : False).elim)
      · intro hh
        exact ((by omega : False).elim)
      · intro hh
        show (a.min_is_exact || b.min_is_exact) = true
        rw [hh, Bool.true_or]
      · intro hh
        show (a.min_is_exact || b.min_is_exact) = true
        rw [hh, Bool.or_true]
      · intro hh
        have hh' : (a.min_is_exact || b.min_is_exact) = true := hh
        cases hae : a.min_is_exact with
        | true => exact Or.inl rfl
        | false =>
          rw [hae, Bool.false_or] at hh'
          exact Or.inr hh'
    · rw [if_neg hd] at h
      cases h
  · rw [if_pos hgt] at h
    cases hbe : b.min_is_exact with
    | true => rw [hbe] at h; simp at h
    | false =>
      rw [hbe] at h
      simp only [Bool.false_eq_true, if_false] at h
      by_cases hd : (a.known_positions ∪ b.known_positions)
          ∩ (a.known_not_positions ∪ b.known_not_positions) = ∅
      · rw [if_pos hd] at h
        have hk := (Option.some_injective _ h).symm
        subst hk
        refine ⟨rfl, rfl, hd, ?_, ?_, fun _ => rfl, ?_, ?_, ?_⟩
        · show a.min_count = max a.min_count b.min_count
          omega
        · intro hh
          exact ((by omega : False).elim)
        · intro hh
          exact hh
        · intro hh
          simp at hh
        · intro hh
          exact Or.inl hh
      · rw [if_neg hd] at h
        cases h

/-- Merging two constraints that are both true of the secret cannot hit an
`assert`: the result exists and is again true of the secret. -/
theorem merge_holds (secret : List Char) (c : Char) (a b : Constraint)
    (ha : ConstraintHolds secret c a) (hb : ConstraintHolds secret c b) :
    ∃ k, Constraint.merge a b = some k ∧ ConstraintHolds secret c k := by
  have hale := holds_count_le secret c a ha
  have hble := holds_count_le secret c b hb
  have hdisj : (a.known_positions ∪ b.known_positions)
      ∩ (a.known_not_positions ∪ b.known_not_positions) = ∅ := by
    rw [Finset.eq_empty_iff_forall_not_mem]
    intro i hi
    rw [Finset.mem_inter, Finset.mem_union, Finset.mem_union] at hi
    rcases hi with ⟨hp, hn⟩
    have hyes : secret.getD i default = c := by
      rcases hp with hp | hp
      · exact ha.2.1 i hp
      · exact hb.2.1 i hp
    have hno : ¬ secret.getD i default = c := by
      rcases hn with hn | hn
      · exact ha.2.2 i hn
      · exact hb.2.2 i hn
    exact hno hyes
  have hpos : ∀ i ∈ a.known_positions ∪ b.known_positions, secret.getD i default = c := by
    intro i hi
    rcases Finset.mem_union.1 hi with hi | hi
    · exact ha.2.1 i hi
    · exact hb.2.1 i hi
  have hneg : ∀ i ∈ a.known_not_positions ∪ b.known_not_positions,
      ¬ secret.getD i default = c := by
    intro i hi
    rcases Finset.mem_union.1 hi with hi | hi
    · exact ha.2.2 i hi
    · exact hb.2.2 i hi
  rcases Nat.lt_trichotomy a.min_count b.min_count with hlt | heq | hgt
  · have hnae : a.min_is_exact = false := by
      cases hae : a.min_is_exact with
      | false => rfl
      | true =>
        have := holds_exact_eq secret c a ha hae
        omega
    refine ⟨⟨b.min_count, b.min_is_exact, a.known_positions ∪ b.known_positions,
        a.known_not_positions ∪ b.known_not_positions⟩, ?_, ?_⟩
    · unfold Constraint.merge
      have h1 : ¬ a.min_count > b.min_count := by omega
      have h2 : ¬ a.min_count = b.min_count := by omega
      rw [if_neg h1, if_neg h2, hnae]
      simp [hdisj]
    · exact ⟨hb.1, hpos, hneg⟩
  · refine ⟨⟨a.min_count, a.min_is_exact || b.min_is_exact,
        a.known_positions ∪ b.known_positions,
        a.known_not_positions ∪ b.known_not_positions⟩, ?_, ?_⟩
    · unfold Constraint.merge
      have h1 : ¬ a.min_count > b.min_count := by omega
      rw [if_neg h1, if_pos heq]
      simp [hdisj]
    · refine ⟨?_, hpos, hneg⟩
      show (if (a.min_is_exact || b.min_is_exact) = true then secret.count c = a.min_count
        else a.min_count ≤ secret.count c)
      cases hae : a.min_is_exact with
      | true =>
        have := holds_exact_eq secret c a ha hae
        simp only [Bool.true_or, if_true]
        omega
      | false =>
        cases hbe : b.min_is_exact with
        | true =>
          have := holds_exact_eq secret c b hb hbe
          simp only [Bool.false_or, if_true]
          omega
        | false =>
          simp only [Bool.or_self, Bool.false_eq_true, if_false]
          omega
  · have hnbe : b.min_is_exact = false := by
      cases hbe : b.min_is_exact with
      | false => rfl
      | true =>
        have := holds_exact_eq secret c b hb hbe
        omega
    refine ⟨⟨a.min_count, a.min_is_exact, a.known_positions ∪ b.known_positions,
        a.known_not_positions ∪ b.known_not_positions⟩, ?_, ?_⟩
    · unfold Constraint.merge
      rw [if_pos hgt, hnbe]
      simp [hdisj]
    · exact ⟨ha.1, hpos, hneg⟩

/-- A merge whose unioned position sets overlap fails (the disjointness
`assert`), whatever the counts are. -/
theorem merge_none_of_overlap (a b : Constraint)
    (hd : ¬ (a.known_positions ∪ b.known_positions)
        ∩ (a.known_not_positions ∪ b.known_not_positions) = ∅) :
    Constraint.merge a b = none := by
  unfold Constraint.merge
  split
  · rfl
  · rw [if_neg hd]

theorem lookupC_some_mem {c : Char} {k : Constraint} :
    ∀ {tbl : List (Char × Constraint)}, lookupC c tbl = some k → (c, k) ∈ tbl := by
  intro tbl
  induction tbl with
  | nil => intro h; cases h
  | cons p ps ih =>
    intro h
    unfold lookupC at h
    by_cases hp : p.1 = c
    · rw [if_pos hp] at h
      have hk : p.2 = k := Option.some_injective _ h
      have hpe : (c, k) = p := by
        rw [← hp, ← hk]
      rw [hpe]
      exact List.mem_cons_self p ps
    · rw [if_neg hp] at h
      exact List.mem_cons_of_mem p (ih h)

theorem mem_setC {tbl : List (Char × Constraint)} {c : Char} {v : Constraint}
    {p : Char × Constraint} (hp : p ∈ setC tbl c v) : p ∈ tbl ∨ p = (c, v) := by
  unfold setC at hp
  cases hl : lookupC c tbl with
  | some k =>
    rw [hl] at hp
    rcases List.mem_map.1 hp with ⟨q, hq, hqe⟩
    by_cases hqc : q.1 = c
    · rw [if_pos hqc] at hqe
      right
      exact hqe.symm
    · rw [if_neg hqc] at hqe
      left
      rw [← hqe]
      exact hq
  | none =>
    rw [hl] at hp
    rcases List.mem_append.1 hp with hp | hp
    · left; exact hp
    · right; simpa using hp

theorem lookupC_map_set_self (c : Char) (v : Constraint) :
    ∀ tbl : List (Char × Constraint), (lookupC c tbl).isSome →
      lookupC c (tbl.map fun q => if q.1 = c then (c, v) else q) = some v := by
  intro tbl
  induction tbl with
  | nil => intro h; cases h
  | cons p ps ih =>
    intro h
    by_cases hp : p.1 = c
    · show lookupC c ((if p.1 = c then (c, v) else p) :: _) = some v
      rw [if_pos hp]
      show (if c = c then some v else _) = some v
      rw [if_pos rfl]
    · show lookupC c ((if p.1 = c then (c, v) else p) :: _) = some v
      rw [if_neg hp]
      show (if p.1 = c then some p.2 else lookupC c (ps.map _)) = some v
      rw [if_neg hp]
      apply ih
      unfold lookupC at h
      rw [if_neg hp] at h
      exact h

theorem lookupC_append_single_self (c : Char) (v : Constraint) :
    ∀ tbl : List (Char × Constraint), lookupC c tbl = none →
      lookupC c (tbl ++ [(c, v)]) = some v := by
  intro tbl
  induction tbl with
  | nil =>
    intro _
    show (if c = c then some v else _) = some v
    rw [if_pos rfl]
  | cons p ps ih =>
    intro h
    unfold lookupC at h
    by_cases hp : p.1 = c
    · rw [if_pos hp] at h
      cases h
    · rw [if_neg hp] at h
      show (if p.1 = c then some p.2 else lookupC c (ps ++ [(c, v)])) = some v
      rw [if_neg hp]
      exact ih h

theorem lookupC_setC_self (c : Char) (v : Constraint) (tbl : List (Char × Constraint)) :
    lookupC c (setC tbl c v) = some v := by
  unfold setC
  cases hl : lookupC c tbl with
  | some k =>
    apply lookupC_map_set_self
    rw [hl]
    rfl
  | none => exact lookupC_append_single_self c v tbl hl

theorem lookupC_setC_ne (c c' : Char) (v : Constraint) (hne : ¬ c' = c) :
    ∀ tbl : List (Char × Constraint), lookupC c' (setC tbl c v) = lookupC c' tbl := by
  have hmap : ∀ tbl : List (Char × Constraint),
      lookupC c' (tbl.map fun q => if q.1 = c then (c, v) else q) = lookupC c' tbl := by
    intro tbl
    induction tbl with
    | nil => rfl
    | cons p ps ih =>
      by_cases hp : p.1 = c
      · show lookupC c' ((if p.1 = c then (c, v) else p) :: _) = _
        rw [if_pos hp]
        show (if c = c' then some v else lookupC c' (ps.map _))
          = (if p.1 = c' then some p.2 else lookupC c' ps)
        have hcc : ¬ c = c' := fun hh => hne hh.symm
        have hpc : ¬ p.1 = c' := by
          rw [hp]
          exact hcc
        rw [if_neg hcc, if_neg hpc, ih]
      · show lookupC c' ((if p.1 = c then (c, v) else p) :: _) = _
        rw [if_neg hp]
        show (if p.1 = c' then some p.2 else lookupC c' (ps.map _))
          = (if p.1 = c' then some p.2 else lookupC c' ps)
        rw [ih]
  have happ : ∀ tbl : List (Char × Constraint),
      lookupC c' (tbl ++ [(c, v)]) = lookupC c' tbl := by
    intro tbl
    induction tbl with
    | nil =>
      show (if c = c' then some v else none) = none
      rw [if_neg fun hh => hne hh.symm]
    | cons p ps ih =>
      show (if p.1 = c' then some p.2 else lookupC c' (ps ++ [(c, v)]))
        = (if p.1 = c' then some p.2 else lookupC c' ps)
      rw [ih]
  intro tbl
  unfold setC
  cases hl : lookupC c tbl with
  | some k => exact hmap tbl
  | none => exact happ tbl

/-- Honesty of a whole constraint table against a secret. -/
def TableHolds (secret : List Char) (tbl : List (Char × Constraint)) : Prop :=
  ∀ c k, (c, k) ∈ tbl → ConstraintHolds secret c k

theorem setC_holds {secret : List Char} {tbl : List (Char × Constraint)} {c : Char}
    {v : Constraint} (ht : TableHolds secret tbl) (hv : ConstraintHolds secret c v) :
    TableHolds secret (setC tbl c v) := by
  intro c' k' hmem
  rcases mem_setC hmem with hmem | heq
  · exact ht c' k' hmem
  · have h1 : c' = c := congrArg Prod.fst heq
    have h2 : k' = v := congrArg Prod.snd heq
    rw [h1, h2]
    exact hv

theorem updateConstraintsAux_cons_none (guess : List Char) (result : List CharResult)
    (m : Bool) (c : Char) (cs : List Char) (tbl : List (Char × Constraint))
    (hl : lookupC c tbl = none) :
    updateConstraintsAux guess result m (c :: cs) tbl
      = updateConstraintsAux guess result m cs
          (setC tbl c (Constraint.from_result (build_char_indexes guess c) result)) := by
  conv_lhs => rw [updateConstraintsAux]
  rw [hl]

theorem updateConstraintsAux_cons_some (guess : List Char) (result : List CharResult)
    (m : Bool) (c : Char) (cs : List Char) (tbl : List (Char × Constraint))
    (oldc k : Constraint) (hl : lookupC c tbl = some oldc)
    (hk : (if m then
        oldc.update (Constraint.from_result (build_char_indexes guess c) result)
      else
        Constraint.merge oldc (Constraint.from_result (build_char_indexes guess c) result))
      = some k) :
    updateConstraintsAux guess result m (c :: cs) tbl
      = updateConstraintsAux guess result m cs (setC tbl c k) := by
  conv_lhs => rw [updateConstraintsAux]
  rw [hl]
  dsimp only
  rw [hk]

theorem updateConstraintsAux_cons_fail (guess : List Char) (result : List CharResult)
    (m : Bool) (c : Char) (cs : List Char) (tbl : List (Char × Constraint))
    (oldc : Constraint) (hl : lookupC c tbl = some oldc)
    (hk : (if m then
        oldc.update (Constraint.from_result (build_char_indexes guess c) result)
      else
        Constraint.merge oldc (Constraint.from_result (build_char_indexes guess c) result))
      = none) :
    updateConstraintsAux guess result m (c :: cs) tbl = none := by
  conv_lhs => rw [updateConstraintsAux]
  rw [hl]
  dsimp only
  rw [hk]

/-- The constraint-table fold never hits an `assert` and keeps the table
honest, when every per-character derived constraint is true of the secret
and the incoming table is. -/
theorem updateConstraintsAux_honest (secret guess : List Char) (result : List CharResult)
    (m : Bool)
    (hres : ∀ ch : Char, ConstraintHolds secret ch
      (Constraint.from_result (build_char_indexes guess ch) result)) :
    ∀ (cs : List Char) (tbl : List (Char × Constraint)), TableHolds secret tbl →
      ∃ tbl', updateConstraintsAux guess result m cs tbl = some tbl'
        ∧ TableHolds secret tbl' := by
  intro cs
  induction cs with
  | nil => exact fun tbl ht => ⟨tbl, rfl, ht⟩
  | cons c cs ih =>
    intro tbl ht
    cases hl : lookupC c tbl with
    | none =>
      rcases ih (setC tbl c (Constraint.from_result (build_char_indexes guess c) result))
          (setC_holds ht (hres c)) with ⟨tbl', h1, h2⟩
      refine ⟨tbl', ?_, h2⟩
      rw [updateConstraintsAux_cons_none guess result m c cs tbl hl]
      exact h1
    | some oldc =>
      have hold : ConstraintHolds secret c oldc := ht c oldc (lookupC_some_mem hl)
      rcases merge_holds secret c oldc
          (Constraint.from_result (build_char_indexes guess c) result) hold (hres c)
        with ⟨k, hk, hkh⟩
      have hif : (if m then
            oldc.update (Constraint.from_result (build_char_indexes guess c) result)
          else
            Constraint.merge oldc (Constraint.from_result (build_char_indexes guess c) result))
          = some k := by
        cases m with
        | false => exact hk
        | true =>
          show oldc.update (Constraint.from_result (build_char_indexes guess c) result) = some k
          rw [update_eq_merge]
          exact hk
      rcases ih (setC tbl c k) (setC_holds ht hkh) with ⟨tbl', h1, h2⟩
      refine ⟨tbl', ?_, h2⟩
      rw [updateConstraintsAux_cons_some guess result m c cs tbl oldc k hl hif]
      exact h1

/-- The `elif` chain of `_verify_is_legal` accepts a character exactly when
the boolean `is_legal` body does. -/
theorem verifyCharOk_iff (guess : List Char) (c : Char) (k : Constraint) :
    verifyCharOk guess c k = true ↔ charOk guess c k = true := by
  rw [charOk_iff]
  unfold verifyCharOk
  by_cases hA : k.min_is_exact ∧ ¬ guess.count c = k.min_count
  · rw [if_pos hA]
    simp only [Bool.false_eq_true, false_iff]
    intro hcon
    rcases hA with ⟨hex, hne⟩
    have h1 := hcon.1
    rw [hex] at h1
    simp only [if_true] at h1
    exact hne h1
  · rw [if_neg hA]
    by_cases hB : guess.count c < k.min_count
    · rw [if_pos hB]
      simp only [Bool.false_eq_true, false_iff]
      intro hcon
      have h1 := hcon.1
      cases hex : k.min_is_exact with
      | true =>
        have heq : guess.count c = k.min_count := by
          by_contra hne
          exact hA ⟨hex, hne⟩
        omega
      | false =>
        rw [hex] at h1
        simp only [Bool.false_eq_true, if_false] at h1
        omega
    · rw [if_neg hB]
      by_cases hC : ∃ i ∈ k.known_positions, ¬ guess.getD i default = c
      · rw [if_pos hC]
        simp only [Bool.false_eq_true, false_iff]
        intro hcon
        rcases hC with ⟨i, hi, hne⟩
        exact hne (hcon.2.1 i hi)
      · rw [if_neg hC]
        by_cases hD : ∃ i ∈ k.known_not_positions, guess.getD i default = c
        · rw [if_pos hD]
          simp only [Bool.false_eq_true, false_iff]
          intro hcon
          rcases hD with ⟨i, hi, hyes⟩
          exact hcon.2.2 i hi hyes
        · rw [if_neg hD]
          simp only [true_iff]
          refine ⟨?_, ?_, ?_⟩
          · cases hex : k.min_is_exact with
            | true =>
              simp only [if_true]
              by_contra hne
              exact hA ⟨hex, hne⟩
            | false =>
              simp only [Bool.false_eq_true, if_false]
              omega
          · intro i hi
            by_contra hne
            exact hC ⟨i, hi, hne⟩
          · intro i hi hyes
            exact hD ⟨i, hi, hyes⟩

theorem verifyCharOk_eq_charOk (guess : List Char) (c : Char) (k : Constraint) :
    verifyCharOk guess c k = charOk guess c k := by
  have h := verifyCharOk_iff guess c k
  cases hv : verifyCharOk guess c k <;> cases hc : charOk guess c k <;> simp_all

/-- On a session with a non-empty secret, `_verify_is_legal` succeeds
exactly when `is_legal` returns true. -/
theorem verify_iff_legal {w : Wordle} {guess : List Char} (hword : ¬ w.word = []) :
    w.verify_is_legal guess = some () ↔ w.is_legal guess = true := by
  unfold Wordle.verify_is_legal Wordle.is_legal
  by_cases hg : guess = []
  · have hlen : ¬ guess.length = w.word.length := by
      subst hg
      intro hh
      exact hword (List.length_eq_zero.1 hh.symm)
    rw [if_pos hg, if_pos hlen]
    simp
  · rw [if_neg hg]
    by_cases hlen : guess.length = w.word.length
    · have hnn : ¬ ¬ guess.length = w.word.length := fun hh => hh hlen
      rw [if_neg hnn, if_neg hnn]
      cases hhard : w.hard_mode with
      | false => simp
      | true =>
        simp only [if_true]
        simp only [verifyCharOk_eq_charOk]
        cases hall : (w.constraints.all fun p => charOk guess p.1 p.2) with
        | true => simp
        | false => simp
    · rw [if_pos hlen, if_pos hlen]
      simp

/-- Every constraint in the session's table is true of its secret. -/
def Honest (w : Wordle) : Prop :=
  TableHolds w.word w.constraints

/-- A legal guess on an honest session succeeds: validation passes and the
constraint-table update never hits an `assert`. -/
theorem make_guess_some_of_legal {w : Wordle} {guess : List Char}
    (hw : Honest w) (hword : ¬ w.word = []) (hleg : w.is_legal guess = true) :
    ∃ w', w.make_guess guess = some (w', score w.word guess)
      ∧ Honest w' ∧ w'.word = w.word ∧ w'.hard_mode = w.hard_mode := by
  have hver : w.verify_is_legal guess = some () := (verify_iff_legal hword).2 hleg
  have hg : ¬ guess = [] := by
    intro hg
    rcases verify_is_legal_some_shape hver with ⟨hg', _⟩
    exact hg' hg
  have hlen : guess.length = w.word.length := (verify_is_legal_some_shape hver).2
  have hinner : w.make_guess_inner guess = some (score w.word guess) := by
    unfold Wordle.make_guess_inner
    rw [if_neg hg, hver]
  have hres : ∀ ch : Char, ConstraintHolds w.word ch
      (Constraint.from_result (build_char_indexes guess ch) (score w.word guess)) :=
    fun ch => from_result_holds w.word guess ch hlen.symm
  rcases updateConstraintsAux_honest w.word guess (score w.word guess) true hres
      (distinctChars guess) w.constraints hw with ⟨tbl', haux, hth⟩
  refine ⟨{ w with constraints := tbl' }, ?_, hth, rfl, rfl⟩
  unfold Wordle.make_guess
  rw [hinner]
  dsimp only
  unfold Wordle.update_constraints
  rw [haux]

/-- An illegal guess makes the submission fail. -/
theorem make_guess_none_of_illegal {w : Wordle} {guess : List Char}
    (hleg : w.is_legal guess = false) : w.make_guess guess = none := by
  unfold Wordle.make_guess
  cases hin : w.make_guess_inner guess with
  | none => rfl
  | some r =>
    exfalso
    unfold Wordle.make_guess_inner at hin
    by_cases hg : guess = []
    · rw [if_pos hg] at hin
      cases hin
    · rw [if_neg hg] at hin
      cases hv : w.verify_is_legal guess with
      | none =>
        rw [hv] at hin
        cases hin
      | some u =>
        have hlen := (verify_is_legal_some_shape hv).2
        have hword : ¬ w.word = [] := by
          intro hw
          rw [hw] at hlen
          simp at hlen
          exact hg hlen
        have hleg' : w.is_legal guess = true := by
          refine (verify_iff_legal hword).1 ?_
          cases u
          exact hv
        rw [hleg'] at hleg
        cases hleg

/-- A successful submission keeps the session honest and preserves the
secret and the hard-mode flag. -/
theorem make_guess_some_honest {w w' : Wordle} {guess : List Char} {r : List CharResult}
    (hw : Honest w) (h : w.make_guess guess = some (w', r)) :
    Honest w' ∧ w'.word = w.word ∧ w'.hard_mode = w.hard_mode := by
  unfold Wordle.make_guess at h
  cases hin : w.make_guess_inner guess with
  | none =>
    rw [hin] at h
    cases h
  | some r0 =>
    rw [hin] at h
    dsimp only at h
    cases hup : w.update_constraints guess r0 true with
    | none =>
      rw [hup] at h
      cases h
    | some w1 =>
      rw [hup] at h
      have hw1 : w1 = w' := congrArg Prod.fst (Option.some_injective _ h)
      rcases make_guess_inner_some_shape hin with ⟨_, hlen, hr0⟩
      have hres : ∀ ch : Char, ConstraintHolds w.word ch
          (Constraint.from_result (build_char_indexes guess ch) r0) := by
        intro ch
        rw [hr0]
        exact from_result_holds w.word guess ch hlen.symm
      unfold Wordle.update_constraints at hup
      cases haux : updateConstraintsAux guess r0 true (distinctChars guess) w.constraints with
      | none =>
        rw [haux] at hup
        cases hup
      | some tbl' =>
        rw [haux] at hup
        have hwq : w1 = { w with constraints := tbl' } :=
          (Option.some_injective _ hup).symm
        rcases updateConstraintsAux_honest w.word guess r0 true hres (distinctChars guess)
            w.constraints hw with ⟨tbl'', haux2, hth⟩
        have htbl : tbl'' = tbl' := by
          rw [haux] at haux2
          exact (Option.some_injective _ haux2).symm
        rw [← hw1, hwq]
        refine ⟨?_, rfl, rfl⟩
        show TableHolds w.word tbl'
        rw [← htbl]
        exact hth

/-- Playing a sequence of guesses preserves honesty, the secret, and the
hard-mode flag. -/
theorem play_honest (gss : List (List Char)) :
    ∀ (w w' : Wordle), Honest w → play w gss = some w' →
      Honest w' ∧ w'.word = w.word ∧ w'.hard_mode = w.hard_mode := by
  induction gss with
  | nil =>
    intro w w' hw h
    have hww : w = w' := Option.some_injective _ h
    subst hww
    exact ⟨hw, rfl, rfl⟩
  | cons g gss ih =>
    intro w w' hw h
    unfold play at h
    cases hmg : w.make_guess g with
    | none =>
      rw [hmg] at h
      cases h
    | some p =>
      rw [hmg] at h
      have hp : w.make_guess g = some (p.1, p.2) := by
        rw [hmg]
      rcases make_guess_some_honest hw hp with ⟨h1, h2, h3⟩
      rcases ih p.1 w' h1 h with ⟨h4, h5, h6⟩
      exact ⟨h4, h5.trans h2, h6.trans h3⟩

/-- Sessions built by `mk_wordle` are honest and have a non-empty secret. -/
theorem mk_wordle_some_shape {word : List Char} {hard : Bool} {w0 : Wordle}
    (h : mk_wordle word hard = some w0) :
    w0 = ⟨hard, word, []⟩ ∧ ¬ word = [] := by
  unfold mk_wordle at h
  by_cases hw : word = []
  · rw [if_pos hw] at h
    cases h
  · rw [if_neg hw] at h
    exact ⟨(Option.some_injective _ h).symm, hw⟩

/-- Any session reached from `mk_wordle` by successful submissions is
honest, keeps the original secret, and keeps the hard-mode flag. -/
theorem reachable_honest {word : List Char} {hard : Bool} {w0 w : Wordle}
    {gss : List (List Char)} (hmk : mk_wordle word hard = some w0)
    (hplay : play w0 gss = some w) :
    Honest w ∧ w.word = word ∧ w.hard_mode = hard ∧ ¬ word = [] := by
  rcases mk_wordle_some_shape hmk with ⟨hw0, hword⟩
  subst hw0
  have hh0 : Honest (⟨hard, word, []⟩ : Wordle) := by
    intro c k hmem
    cases hmem
  rcases play_honest gss _ w hh0 hplay with ⟨h1, h2, h3⟩
  exact ⟨h1, h2, h3, hword⟩

theorem holds_disjoint {secret : List Char} {c : Char} {k : Constraint}
    (h : ConstraintHolds secret c k) :
    k.known_positions ∩ k.known_not_positions = ∅ := by
  rw [Finset.eq_empty_iff_forall_not_mem]
  intro i hi
  rw [Finset.mem_inter] at hi
  exact h.2.2 i hi.2 (h.2.1 i hi.1)

theorem from_result_disjoint (indexes : Finset Nat) (result : List CharResult) :
    (Constraint.from_result indexes result).known_positions
      ∩ (Constraint.from_result indexes result).known_not_positions = ∅ := by
  rw [from_result_known_positions, from_result_known_not_positions,
    Finset.eq_empty_iff_forall_not_mem]
  intro i hi
  rw [Finset.mem_inter, Finset.mem_filter, Finset.mem_filter] at hi
  exact hi.2.2 hi.1.2

/-- The secret of an honest session always passes its own accumulated
constraints. -/
theorem is_legal_secret {w : Wordle} (hw : Honest w) : w.is_legal w.word = true := by
  unfold Wordle.is_legal
  have hnn : ¬ ¬ w.word.length = w.word.length := fun hh => hh rfl
  rw [if_neg hnn]
  cases hhard : w.hard_mode with
  | false => simp
  | true =>
    simp only [if_true]
    rw [List.all_eq_true]
    intro p hp
    rw [charOk_iff]
    exact hw p.1 p.2 hp

/-- C5: on every reachable session, the mutating submission `make_guess`
raises (returns `none`) exactly when `is_legal` would return false on the
same state — `is_legal` and the submission-time validation enforce the same
rules, empty guesses included (an empty guess already fails the length
test against a non-empty secret). In this pure embedding a failing
`make_guess` returns no new state at all, so the constraint table is
untouched on failure by construction, matching the source, where
`_verify_is_legal` runs before any mutation. -/
theorem make_guess_none_iff_illegal (word : List Char) (hard : Bool) (w0 w : Wordle)
    (gss : List (List Char)) (guess : List Char)
    (hmk : mk_wordle word hard = some w0) (hplay : play w0 gss = some w) :
    (w.make_guess guess = none ↔ w.is_legal guess = false) := by
  rcases reachable_honest hmk hplay with ⟨hh, hwword, _, hwne⟩
  have hword : ¬ w.word = [] := by
    rw [hwword]
    exact hwne
  constructor
  · intro hnone
    cases hleg : w.is_legal guess with
    | false => rfl
    | true =>
      rcases make_guess_some_of_legal hh hword hleg with ⟨w', hsome, _⟩
      rw [hsome] at hnone
      cases hnone
  · exact make_guess_none_of_illegal

theorem make_guess_none_iff_illegal_witness :
    mk_wordle ['a', 'b'] true = some ⟨true, ['a', 'b'], []⟩
    ∧ play ⟨true, ['a', 'b'], []⟩ [] = some ⟨true, ['a', 'b'], []⟩
    ∧ ((Wordle.make_guess ⟨true, ['a', 'b'], []⟩ ['a'] = none)
        ↔ Wordle.is_legal ⟨true, ['a', 'b'], []⟩ ['a'] = false) :=
  ⟨by decide, rfl,
    make_guess_none_iff_illegal ['a', 'b'] true ⟨true, ['a', 'b'], []⟩
      ⟨true, ['a', 'b'], []⟩ [] ['a'] (by decide) rfl⟩

/-- C7: position knowledge stays consistent. `from_result` always produces
disjoint `known_positions`/`known_not_positions`; a successful `update` or
`merge` always yields disjoint sets, and when the unioned sets would
overlap, both operations fail (`assert`) instead of producing the
violating constraint; and every constraint of every session reachable from
`mk_wordle` through successful submissions has disjoint sets. -/
theorem disjointness_invariant :
    (∀ (indexes : Finset Nat) (result : List CharResult),
        (Constraint.from_result indexes result).known_positions
          ∩ (Constraint.from_result indexes result).known_not_positions = ∅)
    ∧ (∀ a b k : Constraint, a.update b = some k →
        k.known_positions ∩ k.known_not_positions = ∅)
    ∧ (∀ a b k : Constraint, Constraint.merge a b = some k →
        k.known_positions ∩ k.known_not_positions = ∅)
    ∧ (∀ a b : Constraint,
        ¬ (a.known_positions ∪ b.known_positions)
            ∩ (a.known_not_positions ∪ b.known_not_positions) = ∅ →
        a.update b = none ∧ Constraint.merge a b = none)
    ∧ (∀ (word : List Char) (hard : Bool) (w0 w : Wordle) (gss : List (List Char)),
        mk_wordle word hard = some w0 → play w0 gss = some w →
        ∀ c k, (c, k) ∈ w.constraints →
          k.known_positions ∩ k.known_not_positions = ∅) := by
  refine ⟨from_result_disjoint, ?_, ?_, ?_, ?_⟩
  · intro a b k h
    rw [update_eq_merge] at h
    exact (merge_some_inv a b k h).2.2.1
  · intro a b k h
    exact (merge_some_inv a b k h).2.2.1
  · intro a b hd
    have hm := merge_none_of_overlap a b hd
    constructor
    · rw [update_eq_merge]
      exact hm
    · exact hm
  · intro word hard w0 w gss hmk hplay c k hmem
    rcases reachable_honest hmk hplay with ⟨hh, _, _, _⟩
    exact holds_disjoint (hh c k hmem)

theorem disjointness_invariant_witness :
    (¬ ((⟨1, false, {0}, ∅⟩ : Constraint).known_positions
          ∪ (⟨1, false, ∅, {0}⟩ : Constraint).known_positions)
        ∩ ((⟨1, false, {0}, ∅⟩ : Constraint).known_not_positions
          ∪ (⟨1, false, ∅, {0}⟩ : Constraint).known_not_positions) = ∅)
    ∧ (Constraint.update ⟨1, false, {0}, ∅⟩ ⟨1, false, ∅, {0}⟩ = none
        ∧ Constraint.merge ⟨1, false, {0}, ∅⟩ ⟨1, false, ∅, {0}⟩ = none) :=
  ⟨by decide,
    disjointness_invariant.2.2.2.1 ⟨1, false, {0}, ∅⟩ ⟨1, false, ∅, {0}⟩ (by decide)⟩

/-- C9: the internal-invariant fault branches are unreachable from honest
data. Constraints derived by `from_result` from a score against the secret
are true of the secret; merging (or updating with) two constraints that are
true of the same secret never takes an `assert` branch and yields a
constraint still true of the secret; and two exact counts derived from the
same secret always agree, so such merges cannot contradict. -/
theorem asserts_unreachable_from_honest_data :
    (∀ (secret guess : List Char) (c : Char), secret.length = guess.length →
        ConstraintHolds secret c
          (Constraint.from_result (build_char_indexes guess c) (score secret guess)))
    ∧ (∀ (secret : List Char) (c : Char) (a b : Constraint),
        ConstraintHolds secret c a → ConstraintHolds secret c b →
          (a.update b).isSome ∧ (Constraint.merge a b).isSome)
    ∧ (∀ (secret : List Char) (c : Char) (a b k : Constraint),
        ConstraintHolds secret c a → ConstraintHolds secret c b →
          Constraint.merge a b = some k → ConstraintHolds secret c k)
    ∧ (∀ (secret : List Char) (c : Char) (a b : Constraint),
        ConstraintHolds secret c a → ConstraintHolds secret c b →
          a.min_is_exact = true → b.min_is_exact = true →
          a.min_count = b.min_count) := by
  refine ⟨fun s g c h => from_result_holds s g c h, ?_, ?_, ?_⟩
  · intro s c a b ha hb
    rcases merge_holds s c a b ha hb with ⟨k, hk, _⟩
    constructor
    · rw [update_eq_merge, hk]
      rfl
    · rw [hk]
      rfl
  · intro s c a b k ha hb hk
    rcases merge_holds s c a b ha hb with ⟨k', hk', hkh⟩
    rw [hk'] at hk
    have hkk : k' = k := Option.some_injective _ hk
    rw [← hkk]
    exact hkh
  · intro s c a b ha hb hae hbe
    have h1 := holds_exact_eq s c a ha hae
    have h2 := holds_exact_eq s c b hb hbe
    omega

theorem asserts_unreachable_from_honest_data_witness :
    ("ERODE".toList.length = "EERIE".toList.length)
    ∧ ConstraintHolds "ERODE".toList 'E'
        (Constraint.from_result (build_char_indexes "EERIE".toList 'E')
          (score "ERODE".toList "EERIE".toList)) :=
  ⟨by decide,
    asserts_unreachable_from_honest_data.1 "ERODE".toList "EERIE".toList 'E' (by decide)⟩

/-- C10: the secret is never ruled out by its own clues. For every session
created in hard mode, after any sequence of successful submissions,
`is_legal` applied to the secret itself returns true: the secret satisfies
every accumulated count bound and both position sets. -/
theorem secret_never_ruled_out (word : List Char) (w0 w : Wordle) (gss : List (List Char))
    (hmk : mk_wordle word true = some w0) (hplay : play w0 gss = some w) :
    w.is_legal word = true := by
  rcases reachable_honest hmk hplay with ⟨hh, hwword, _, _⟩
  have hsec := is_legal_secret hh
  rw [hwword] at hsec
  exact hsec

theorem secret_never_ruled_out_witness :
    mk_wordle ['a', 'b'] true = some ⟨true, ['a', 'b'], []⟩
    ∧ play ⟨true, ['a', 'b'], []⟩ [['b', 'a']]
        = some ⟨true, ['a', 'b'], [('b', ⟨1, false, ∅, {0}⟩), ('a', ⟨1, false, ∅, {1}⟩)]⟩
    ∧ Wordle.is_legal
        ⟨true, ['a', 'b'], [('b', ⟨1, false, ∅, {0}⟩), ('a', ⟨1, false, ∅, {1}⟩)]⟩
        ['a', 'b'] = true :=
  ⟨by decide, by decide,
    secret_never_ruled_out ['a', 'b'] ⟨true, ['a', 'b'], []⟩
      ⟨true, ['a', 'b'], [('b', ⟨1, false, ∅, {0}⟩), ('a', ⟨1, false, ∅, {1}⟩)]⟩
      [['b', 'a']] (by decide) (by decide)⟩

/-- Knowledge ordering between constraints: everything recorded in the
first is retained in the second. -/
def ConstraintLE (k k' : Constraint) : Prop :=
  k.min_count ≤ k'.min_count
  ∧ (k.min_is_exact = true → k'.min_is_exact = true)
  ∧ k.known_positions ⊆ k'.known_positions
  ∧ k.known_not_positions ⊆ k'.known_not_positions

theorem constraintLE_refl (k : Constraint) : ConstraintLE k k :=
  ⟨le_refl _, fun h => h, Finset.Subset.refl _, Finset.Subset.refl _⟩

theorem constraintLE_trans {a b c : Constraint} (h1 : ConstraintLE a b)
    (h2 : ConstraintLE b c) : ConstraintLE a c :=
  ⟨le_trans h1.1 h2.1, fun h => h2.2.1 (h1.2.1 h),
    Finset.Subset.trans h1.2.2.1 h2.2.2.1, Finset.Subset.trans h1.2.2.2 h2.2.2.2⟩

theorem merge_le_left {a b k : Constraint} (h : Constraint.merge a b = some k) :
    ConstraintLE a k := by
  rcases merge_some_inv a b k h with ⟨hkp, hknp, _, hmax, _, _, hex, _, _⟩
  refine ⟨?_, hex, ?_, ?_⟩
  · rw [hmax]
    exact le_max_left _ _
  · rw [hkp]
    exact fun x hx => Finset.mem_union_left _ hx
  · rw [hknp]
    exact fun x hx => Finset.mem_union_left _ hx

/-- Knowledge ordering between whole constraint tables. -/
def TableLE (t t' : List (Char × Constraint)) : Prop :=
  ∀ c k, lookupC c t = some k → ∃ k', lookupC c t' = some k' ∧ ConstraintLE k k'

theorem tableLE_refl (t : List (Char × Constraint)) : TableLE t t :=
  fun _ k h => ⟨k, h, constraintLE_refl k⟩

theorem tableLE_trans {t1 t2 t3 : List (Char × Constraint)} (h1 : TableLE t1 t2)
    (h2 : TableLE t2 t3) : TableLE t1 t3 := by
  intro c k hk
  rcases h1 c k hk with ⟨k', hk', hle⟩
  rcases h2 c k' hk' with ⟨k'', hk'', hle'⟩
  exact ⟨k'', hk'', constraintLE_trans hle hle'⟩

theorem updateConstraintsAux_le (guess : List Char) (result : List CharResult) (m : Bool)
    (cs : List Char) :
    ∀ tbl tbl', updateConstraintsAux guess result m cs tbl = some tbl' →
      TableLE tbl tbl' := by
  induction cs with
  | nil =>
    intro tbl tbl' h
    have htt : tbl = tbl' := Option.some_injective _ h
    rw [← htt]
    exact tableLE_refl tbl
  | cons c cs ih =>
    intro tbl tbl' h
    cases hl : lookupC c tbl with
    | none =>
      rw [updateConstraintsAux_cons_none guess result m c cs tbl hl] at h
      have h2 := ih _ _ h
      intro c0 k0 hk0
      have hne : ¬ c0 = c := by
        intro hh
        rw [hh, hl] at hk0
        cases hk0
      apply h2
      rw [lookupC_setC_ne c c0
        (Constraint.from_result (build_char_indexes guess c) result) hne tbl]
      exact hk0
    | some oldc =>
      have hif0 : (if m then
            oldc.update (Constraint.from_result (build_char_indexes guess c) result)
          else
            Constraint.merge oldc (Constraint.from_result (build_char_indexes guess c) result))
          = Constraint.merge oldc (Constraint.from_result (build_char_indexes guess c) result) := by
        cases m with
        | false => rfl
        | true =>
          exact update_eq_merge oldc (Constraint.from_result (build_char_indexes guess c) result)
      cases hk : Constraint.merge oldc
          (Constraint.from_result (build_char_indexes guess c) result) with
      | none =>
        rw [updateConstraintsAux_cons_fail guess result m c cs tbl oldc hl
          (by rw [hif0]; exact hk)] at h
        cases h
      | some k =>
        rw [updateConstraintsAux_cons_some guess result m c cs tbl oldc k hl
          (by rw [hif0]; exact hk)] at h
        have h2 := ih _ _ h
        intro c0 k0 hk0
        by_cases hc0 : c0 = c
        · subst hc0
          rw [hl] at hk0
          have hko : k0 = oldc := (Option.some_injective _ hk0).symm
          subst hko
          rcases h2 c0 k (lookupC_setC_self c0 k tbl) with ⟨k', hk', hle⟩
          refine ⟨k', hk', ?_⟩
          have hkoldc : ConstraintLE k0 k := merge_le_left hk
          exact constraintLE_trans hkoldc hle
        · apply h2
          rw [lookupC_setC_ne c c0 k hc0 tbl]
          exact hk0

theorem make_guess_tableLE {w w' : Wordle} {guess : List Char} {r : List CharResult}
    (h : w.make_guess guess = some (w', r)) : TableLE w.constraints w'.constraints := by
  unfold Wordle.make_guess at h
  cases hin : w.make_guess_inner guess with
  | none =>
    rw [hin] at h
    cases h
  | some r0 =>
    rw [hin] at h
    dsimp only at h
    cases hup : w.update_constraints guess r0 true with
    | none =>
      rw [hup] at h
      cases h
    | some w1 =>
      rw [hup] at h
      have hw1 : w1 = w' := congrArg Prod.fst (Option.some_injective _ h)
      unfold Wordle.update_constraints at hup
      cases haux : updateConstraintsAux guess r0 true (distinctChars guess) w.constraints with
      | none =>
        rw [haux] at hup
        cases hup
      | some tbl' =>
        rw [haux] at hup
        have hwq : w1 = { w with constraints := tbl' } := (Option.some_injective _ hup).symm
        have hle := updateConstraintsAux_le guess r0 true (distinctChars guess)
          w.constraints tbl' haux
        rw [← hw1, hwq]
        exact hle

theorem play_tableLE (gss : List (List Char)) :
    ∀ (w w' : Wordle), play w gss = some w' → TableLE w.constraints w'.constraints := by
  induction gss with
  | nil =>
    intro w w' h
    have hww : w = w' := Option.some_injective _ h
    rw [← hww]
    exact tableLE_refl w.constraints
  | cons g gss ih =>
    intro w w' h
    unfold play at h
    cases hmg : w.make_guess g with
    | none =>
      rw [hmg] at h
      cases h
    | some p =>
      rw [hmg] at h
      have hp : w.make_guess g = some (p.1, p.2) := by
        rw [hmg]
      exact tableLE_trans (make_guess_tableLE hp) (ih p.1 w' h)

/-- C6: across any sequence of successful `make_guess` submissions on one
session, each character's `known_positions` and `known_not_positions` only
grow under set inclusion, `min_count` never decreases once set, and once
`min_is_exact` is true it stays true. -/
theorem constraints_monotone (w : Wordle) (gss : List (List Char)) (w' : Wordle)
    (hplay : play w gss = some w') :
    ∀ c k, lookupC c w.constraints = some k →
      ∃ k', lookupC c w'.constraints = some k'
        ∧ k.known_positions ⊆ k'.known_positions
        ∧ k.known_not_positions ⊆ k'.known_not_positions
        ∧ k.min_count ≤ k'.min_count
        ∧ (k.min_is_exact = true → k'.min_is_exact = true) := by
  intro c k hk
  rcases play_tableLE gss w w' hplay c k hk with ⟨k', hk', hle⟩
  exact ⟨k', hk', hle.2.2.1, hle.2.2.2, hle.1, hle.2.1⟩

theorem constraints_monotone_witness :
    play ⟨false, ['a', 'b'], [('a', ⟨1, false, {0}, ∅⟩)]⟩ [['b', 'a']]
        = some ⟨false, ['a', 'b'],
            [('a', ⟨1, false, {0}, {1}⟩), ('b', ⟨1, false, ∅, {0}⟩)]⟩
    ∧ lookupC 'a' [('a', (⟨1, false, {0}, ∅⟩ : Constraint))] = some ⟨1, false, {0}, ∅⟩
    ∧ ∃ k', lookupC 'a' (Wordle.constraints ⟨false, ['a', 'b'],
            [('a', ⟨1, false, {0}, {1}⟩), ('b', ⟨1, false, ∅, {0}⟩)]⟩) = some k'
        ∧ (⟨1, false, {0}, ∅⟩ : Constraint).known_positions ⊆ k'.known_positions
        ∧ (⟨1, false, {0}, ∅⟩ : Constraint).known_not_positions ⊆ k'.known_not_positions
        ∧ (⟨1, false, {0}, ∅⟩ : Constraint).min_count ≤ k'.min_count
        ∧ ((⟨1, false, {0}, ∅⟩ : Constraint).min_is_exact = true →
            k'.min_is_exact = true) :=
  ⟨by decide, by decide,
    constraints_monotone ⟨false, ['a', 'b'], [('a', ⟨1, false, {0}, ∅⟩)]⟩ [['b', 'a']]
      ⟨false, ['a', 'b'], [('a', ⟨1, false, {0}, {1}⟩), ('b', ⟨1, false, ∅, {0}⟩)]⟩
      (by decide) 'a' ⟨1, false, {0}, ∅⟩ (by decide)⟩

end WordleGame
